import Mathlib

set_option maxRecDepth 1000000

/-!
# Verification of the rmapi-rs sync engine

A shallow embedding of the core of the `rmapi-rs` repository (a client for
the reMarkable cloud document-sync service) together with theorems settling
the specification claims about it.

The embedding follows the Rust sources:
* `src/rmapi/src/objects/entry.rs`   — `IndexEntry`, `calculate_root_hash`, `from_str`
* `src/rmapi/src/objects/node.rs`    — `Node`, `FileTree::build`
* `src/rmapi/src/client.rs`          — `Client::{list_files, rename_entry, delete_entry, upload_document, modify_root_index, compute_hash, from_token}`
* `src/rmapi/src/endpoints.rs`       — `get_files` (root index parse + per-entry metadata task), `update_root`
* `src/rmapi/src/filesystem.rs`      — `FileSystem::{new, load_cache, save_cache, get_all_documents}`

External libraries used by the Rust code (SHA-256 from `sha2`, hex from
`hex`) are given faithful executable models; external effects (HTTP, the
remote root-pointer CAS described in spec §6, `serde_json`, `uuid`,
`chrono`) are modelled as explicit parameters or by the interface the spec
gives for them.
-/

namespace Rmapi

/-! ## SHA-256 (model of the `sha2` crate's `Sha256`)

Bytes are `Nat` values `< 256`; 32-bit words are `Nat` values reduced
modulo `2^32`.  Feeding several byte strings into one hasher with
`update` equals hashing their concatenation, so the streaming interface is
modelled as a single function on the full byte list. -/

def m32 (n : Nat) : Nat := n % 4294967296

def rotr32 (c x : Nat) : Nat := (x >>> c) ||| m32 (x <<< (32 - c))

def not32 (x : Nat) : Nat := 4294967295 - x

def sha256K : List Nat :=
  [1116352408, 1899447441, 3049323471, 3921009573, 961987163, 1508970993,
   2453635748, 2870763221, 3624381080, 310598401, 607225278, 1426881987,
   1925078388, 2162078206, 2614888103, 3248222580, 3835390401, 4022224774,
   264347078, 604807628, 770255983, 1249150122, 1555081692, 1996064986,
   2554220882, 2821834349, 2952996808, 3210313671, 3336571891, 3584528711,
   113926993, 338241895, 666307205, 773529912, 1294757372, 1396182291,
   1695183700, 1986661051, 2177026350, 2456956037, 2730485921, 2820302411,
   3259730800, 3345764771, 3516065817, 3600352804, 4094571909, 275423344,
   430227734, 506948616, 659060556, 883997877, 958139571, 1322822218,
   1537002063, 1747873779, 1955562222, 2024104815, 2227730452, 2361852424,
   2428436474, 2756734187, 3204031479, 3329325298]

structure Hash8 where
  a : Nat
  b : Nat
  c : Nat
  d : Nat
  e : Nat
  f : Nat
  g : Nat
  h : Nat
deriving Repr, DecidableEq

def sha256H0 : Hash8 :=
  ⟨1779033703, 3144134277, 1013904242, 2773480762,
   1359893119, 2600822924, 528734635, 1541459225⟩

/-- Big-endian 8-byte encoding of a (below `2^64`) natural number. -/
def be64 (n : Nat) : List Nat :=
  [(n >>> 56) % 256, (n >>> 48) % 256, (n >>> 40) % 256, (n >>> 32) % 256,
   (n >>> 24) % 256, (n >>> 16) % 256, (n >>> 8) % 256, n % 256]

/-- Big-endian 4-byte encoding of a 32-bit word. -/
def be32 (n : Nat) : List Nat :=
  [(n >>> 24) % 256, (n >>> 16) % 256, (n >>> 8) % 256, n % 256]

/-- SHA-256 padding: append `0x80`, zeros to 56 mod 64, then the bit length. -/
def sha256Pad (msg : List Nat) : List Nat :=
  let L := msg.length
  let k := (64 - ((L + 9) % 64)) % 64
  msg ++ [0x80] ++ List.replicate k 0 ++ be64 (8 * L)

def chunk64Go : Nat → List Nat → List (List Nat)
  | 0, _ => []
  | _ + 1, [] => []
  | fuel + 1, x :: xs => ((x :: xs).take 64) :: chunk64Go fuel ((x :: xs).drop 64)

/-- Split a byte list into 64-byte blocks.  The fuel `l.length + 1` is
enough because every step consumes at least one byte. -/
def chunk64 (l : List Nat) : List (List Nat) := chunk64Go (l.length + 1) l

/-- Combine 4 bytes (big-endian) into one 32-bit word. -/
def word32Of (b0 b1 b2 b3 : Nat) : Nat := ((b0 <<< 24) + (b1 <<< 16) + (b2 <<< 8) + b3)

def toWords : List Nat → List Nat
  | b0 :: b1 :: b2 :: b3 :: rest => word32Of b0 b1 b2 b3 :: toWords rest
  | _ => []

def smallSigma0 (x : Nat) : Nat := (rotr32 7 x) ^^^ (rotr32 18 x) ^^^ (x >>> 3)

def smallSigma1 (x : Nat) : Nat := (rotr32 17 x) ^^^ (rotr32 19 x) ^^^ (x >>> 10)

def bigSigma0 (x : Nat) : Nat := (rotr32 2 x) ^^^ (rotr32 13 x) ^^^ (rotr32 22 x)

def bigSigma1 (x : Nat) : Nat := (rotr32 6 x) ^^^ (rotr32 11 x) ^^^ (rotr32 25 x)

/-- Extend the 16 message words of one block to the 64-word schedule. -/
def extendSchedule (w : List Nat) : List Nat :=
  (List.range 48).foldl
    (fun acc _ =>
      let n := acc.length
      acc ++ [m32 (acc.getD (n - 16) 0 + smallSigma0 (acc.getD (n - 15) 0) +
                   acc.getD (n - 7) 0 + smallSigma1 (acc.getD (n - 2) 0))])
    w

def sha256Round (st : Hash8) (kw : Nat × Nat) : Hash8 :=
  let t1 := m32 (st.h + bigSigma1 st.e + ((st.e &&& st.f) ^^^ (not32 st.e &&& st.g)) + kw.1 + kw.2)
  let t2 := m32 (bigSigma0 st.a + ((st.a &&& st.b) ^^^ (st.a &&& st.c) ^^^ (st.b &&& st.c)))
  ⟨m32 (t1 + t2), st.a, st.b, st.c, m32 (st.d + t1), st.e, st.f, st.g⟩

def compressBlock (hv : Hash8) (block : List Nat) : Hash8 :=
  let w := extendSchedule (toWords block)
  let st := (sha256K.zip w).foldl sha256Round hv
  ⟨m32 (hv.a + st.a), m32 (hv.b + st.b), m32 (hv.c + st.c), m32 (hv.d + st.d),
   m32 (hv.e + st.e), m32 (hv.f + st.f), m32 (hv.g + st.g), m32 (hv.h + st.h)⟩

/-- SHA-256 of a byte list, as a list of 32 bytes. -/
def sha256 (msg : List Nat) : List Nat :=
  let hv := (chunk64 (sha256Pad msg)).foldl compressBlock sha256H0
  be32 hv.a ++ be32 hv.b ++ be32 hv.c ++ be32 hv.d ++
  be32 hv.e ++ be32 hv.f ++ be32 hv.g ++ be32 hv.h

/-! ## Hex encoding and decoding (model of the `hex` crate) -/

def hexDigitChar (n : Nat) : Char :=
  if n = 0 then '0' else if n = 1 then '1' else if n = 2 then '2' else if n = 3 then '3'
  else if n = 4 then '4' else if n = 5 then '5' else if n = 6 then '6' else if n = 7 then '7'
  else if n = 8 then '8' else if n = 9 then '9' else if n = 10 then 'a' else if n = 11 then 'b'
  else if n = 12 then 'c' else if n = 13 then 'd' else if n = 14 then 'e' else 'f'

/-- Lowercase hex encoding of a byte list (`hex::encode`). -/
def hexEncode (bytes : List Nat) : String :=
  String.mk (bytes.flatMap (fun b => [hexDigitChar (b / 16), hexDigitChar (b % 16)]))

/-- Value of one hex digit; accepts both cases (`hex` crate behaviour). -/
def hexVal (c : Char) : Option Nat :=
  if '0' ≤ c ∧ c ≤ '9' then some (c.toNat - '0'.toNat)
  else if 'a' ≤ c ∧ c ≤ 'f' then some (c.toNat - 'a'.toNat + 10)
  else if 'A' ≤ c ∧ c ≤ 'F' then some (c.toNat - 'A'.toNat + 10)
  else none

def hexDecodeList : List Char → Option (List Nat)
  | [] => some []
  | [_] => none
  | c1 :: c2 :: rest =>
    match hexVal c1, hexVal c2, hexDecodeList rest with
    | some h1, some h2, some bs => some ((16 * h1 + h2) :: bs)
    | _, _, _ => none

/-- `hex::decode`: fails on odd length or non-hex characters. -/
def hexDecode (s : String) : Option (List Nat) := hexDecodeList s.data

/-! ## UTF-8 bytes of a string (Rust `str::as_bytes`) -/

def utf8Char (c : Char) : List Nat :=
  let n := c.toNat
  if n < 0x80 then [n]
  else if n < 0x800 then [0xc0 ||| (n >>> 6), 0x80 ||| (n &&& 0x3f)]
  else if n < 0x10000 then
    [0xe0 ||| (n >>> 12), 0x80 ||| ((n >>> 6) &&& 0x3f), 0x80 ||| (n &&& 0x3f)]
  else
    [0xf0 ||| (n >>> 18), 0x80 ||| ((n >>> 12) &&& 0x3f),
     0x80 ||| ((n >>> 6) &&& 0x3f), 0x80 ||| (n &&& 0x3f)]

def strBytes (s : String) : List Nat := (s.data.map utf8Char).flatten

/-- `Client::compute_hash` (client.rs:566-570): hex-encoded SHA-256 of bytes. -/
def computeHash (s : String) : String := hexEncode (sha256 (strBytes s))

example : hexEncode (sha256 (strBytes "abc")) =
    "ba7816bf8f01cfea414140de5dae2223b00361a396177a9cb410ff61f20015ad" := by decide

example : hexEncode (sha256 []) =
    "e3b0c44298fc1c149afbf4c8996fb92427ae41e4649b934ca495991b7852b855" := by decide

/-! ## String utilities mirroring the Rust standard library -/

instance exceptDecEq {α β : Type} [DecidableEq α] [DecidableEq β] : DecidableEq (Except α β)
  | Except.error a, Except.error b =>
    if h : a = b then isTrue (by rw [h]) else isFalse (fun he => by cases he; exact h rfl)
  | Except.error _, Except.ok _ => isFalse (fun he => by cases he)
  | Except.ok _, Except.error _ => isFalse (fun he => by cases he)
  | Except.ok a, Except.ok b =>
    if h : a = b then isTrue (by rw [h]) else isFalse (fun he => by cases he; exact h rfl)

/-- `u64::from_str`-style digit accumulation; `none` on a non-digit. -/
def parseDigitsGo : List Char → Nat → Option Nat
  | [], acc => some acc
  | c :: cs, acc =>
    if '0' ≤ c ∧ c ≤ '9' then parseDigitsGo cs (acc * 10 + (c.toNat - 48)) else none

/-- Unsigned decimal parse with an exclusive upper `bound`: an optional
leading `+`, then at least one digit, overflow rejected
(`str::parse::<uN>` semantics). -/
def parseUIntBounded (bound : Nat) (s : String) : Option Nat :=
  let digits := match s.data with
    | '+' :: rest => rest
    | l => l
  if digits = [] then none
  else match parseDigitsGo digits 0 with
    | none => none
    | some v => if v < bound then some v else none

/-- `str::parse::<u64>`. -/
def parseU64 (s : String) : Option Nat := parseUIntBounded 18446744073709551616 s

/-- `str::parse::<u32>`. -/
def parseU32 (s : String) : Option Nat := parseUIntBounded 4294967296 s

/-- `str::parse::<i64>`: optional sign, digits, range `[-2^63, 2^63)`. -/
def parseI64 (s : String) : Option Int :=
  match s.data with
  | '-' :: rest =>
    if rest = [] then none
    else match parseDigitsGo rest 0 with
      | none => none
      | some v => if v ≤ 9223372036854775808 then some (-(v : Int)) else none
  | _ =>
    match parseUIntBounded 9223372036854775808 s with
    | none => none
    | some v => some (v : Int)

def splitCharGo (sep : Char) : List Char → List Char → List String
  | [], acc => [String.mk acc.reverse]
  | c :: cs, acc =>
    if c = sep then String.mk acc.reverse :: splitCharGo sep cs []
    else splitCharGo sep cs (c :: acc)

/-- Rust `str::split(sep)` for a character separator, collected to a list:
`n` separators yield `n + 1` (possibly empty) pieces. -/
def splitOnChar (sep : Char) (s : String) : List String := splitCharGo sep s.data []

def stripCR (s : String) : String :=
  if s.data.getLast? = some '\r' then String.mk s.data.dropLast else s

/-- Rust `str::lines()`: split on `\n`, strip a `\r` from each
`\n`-terminated line, and drop a final empty fragment produced by a
trailing newline (the last unterminated fragment is kept verbatim). -/
def rustLines (s : String) : List String :=
  let ps := splitOnChar '\n' s
  let last := ps.getLast?.getD ""
  let init := ps.dropLast.map stripCR
  if last = "" then init else init ++ [last]

def listStartsWith : List Char → List Char → Bool
  | [], _ => true
  | _ :: _, [] => false
  | p :: ps, x :: xs => p = x && listStartsWith ps xs

def listContainsSub (pat : List Char) : List Char → Bool
  | [] => listStartsWith pat []
  | x :: xs => listStartsWith pat (x :: xs) || listContainsSub pat xs

/-- Rust `str::contains(pat)` for a literal pattern. -/
def strContainsSub (s pat : String) : Bool := listContainsSub pat.data s.data

example : rustLines "3\nAA:0:x:0:1\n" = ["3", "AA:0:x:0:1"] := by decide
example : rustLines "a\r\nb\r" = ["a", "b\r"] := by decide
example : strContainsSub "aaa:0:doc.metadata:0:7" ".metadata" = true := by decide
example : strContainsSub "aaa:0:doc.content:0:7" ".metadata" = false := by decide

/-! ## IndexEntry (objects/entry.rs) -/

structure IndexEntry where
  hash : String
  type_id : String
  id : String
  unknown_count : String
  size : Nat
deriving DecidableEq, Repr

/-- `IndexEntry::new` (entry.rs:16-24). -/
def IndexEntry.new (hash type_id id : String) (size : Nat) : IndexEntry :=
  ⟨hash, type_id, id, "0", size⟩

/-- Lexicographic comparison of character lists; on strings this agrees
with Rust's byte-wise `str::cmp` because UTF-8 preserves code-point
order. -/
def charListLt : List Char → List Char → Bool
  | _, [] => false
  | [], _ :: _ => true
  | a :: as, b :: bs => if a < b then true else if b < a then false else charListLt as bs

/-- Rust `a < b` on strings (`Ord::cmp` returning `Less`). -/
def strLtb (a b : String) : Bool := charListLt a.data b.data

/-- One step of the stable insertion modelling `sort_by(|a, b| a.id.cmp(&b.id))`:
an element is inserted after all existing entries whose id is `≤` its own,
which combined with the left fold below reproduces a stable sort. -/
def insertByIdOrd (e : IndexEntry) : List IndexEntry → List IndexEntry
  | [] => [e]
  | x :: xs => if strLtb e.id x.id then e :: x :: xs else x :: insertByIdOrd e xs

/-- `sorted_entries.sort_by(|a, b| a.id.cmp(&b.id))` (entry.rs:32); Rust's
`sort_by` is stable, as is this insertion sort. -/
def sortById (l : List IndexEntry) : List IndexEntry :=
  l.foldl (fun acc e => insertByIdOrd e acc) []

/-- Hex-decode the hash of each (already sorted) entry and concatenate the
raw bytes, failing on the first invalid hex hash (entry.rs:35-40). -/
def decodeEntryHashes : List IndexEntry → Except String (List Nat)
  | [] => Except.ok []
  | e :: rest =>
    match hexDecode e.hash with
    | none => Except.error ("Invalid hex hash in entry " ++ e.id)
    | some bs =>
      match decodeEntryHashes rest with
      | Except.error m => Except.error m
      | Except.ok bss => Except.ok (bs ++ bss)

/-- `IndexEntry::calculate_root_hash` (entry.rs:27-42): sort by id,
hex-decode each entry's hash, SHA-256 the concatenation, hex-encode. -/
def calculate_root_hash (entries : List IndexEntry) : Except String String :=
  match decodeEntryHashes (sortById entries) with
  | Except.error m => Except.error m
  | Except.ok bytes => Except.ok (hexEncode (sha256 bytes))

/-- `IndexEntry::from_str` (entry.rs:58-79): split on `:`, need at least 5
fields; fields 0-3 are taken verbatim (the count field is NOT parsed as a
number), field 4 must parse as `u64`. -/
def IndexEntry.from_str (s : String) : Except String IndexEntry :=
  if (splitOnChar ':' s).length < 5 then Except.error ("Invalid index line format: " ++ s)
  else
    match parseU64 ((splitOnChar ':' s).getD 4 "") with
    | none => Except.error ("Invalid size in index line: " ++ s)
    | some size =>
      Except.ok ⟨(splitOnChar ':' s).getD 0 "", (splitOnChar ':' s).getD 1 "",
        (splitOnChar ':' s).getD 2 "", (splitOnChar ':' s).getD 3 "", size⟩

/-- `impl Display for IndexEntry` (entry.rs:45-53). -/
def IndexEntry.toLine (e : IndexEntry) : String :=
  e.hash ++ ":" ++ e.type_id ++ ":" ++ e.id ++ ":" ++ e.unknown_count ++ ":" ++ toString e.size

example : IndexEntry.from_str "aabbcc:1:uuid-1234:0:1024" =
    Except.ok ⟨"aabbcc", "1", "uuid-1234", "0", 1024⟩ := by decide

/-! ### Sorting lemmas for `sortById` -/

theorem charListLt_iff : ∀ as bs : List Char, charListLt as bs = true ↔ as.lt bs
  | as, [] => by
    constructor
    · intro h; cases as <;> simp [charListLt] at h
    · intro h; cases h
  | [], b :: bs => by
    simpa [charListLt] using List.lt.nil b bs
  | a :: as, b :: bs => by
    by_cases hab : a < b
    · simpa [charListLt, hab] using List.lt.head as bs hab
    · by_cases hba : b < a
      · simp only [charListLt, if_neg hab, if_pos hba, Bool.false_eq_true, false_iff]
        intro h
        cases h with
        | head _ _ h1 => exact hab h1
        | tail h1 h2 h3 => exact h2 hba
      · simp only [charListLt, if_neg hab, if_neg hba]
        rw [charListLt_iff as bs]
        constructor
        · exact fun h => List.lt.tail hab hba h
        · intro h
          cases h with
          | head _ _ h1 => exact absurd h1 hab
          | tail _ _ h3 => exact h3

theorem strLtb_iff (a b : String) : strLtb a b = true ↔ a < b := by
  rw [String.lt_iff_toList_lt]
  have h1 : (a.toList < b.toList) ↔ List.Lex (fun x y : Char => x < y) a.data b.data := Iff.rfl
  rw [h1, ← List.lt_iff_lex_lt]
  exact charListLt_iff a.data b.data

theorem insertByIdOrd_perm (e : IndexEntry) (l : List IndexEntry) :
    (insertByIdOrd e l).Perm (e :: l) := by
  induction l with
  | nil => simp [insertByIdOrd]
  | cons x xs ih =>
    by_cases h : strLtb e.id x.id = true
    · simp [insertByIdOrd, h]
    · simp only [insertByIdOrd, if_neg h]
      exact ((ih.cons x).trans (List.Perm.swap e x xs))

theorem sortByIdAux_perm (l acc : List IndexEntry) :
    (l.foldl (fun acc e => insertByIdOrd e acc) acc).Perm (l ++ acc) := by
  induction l generalizing acc with
  | nil => simp
  | cons x xs ih =>
    simp only [List.foldl_cons, List.cons_append]
    refine (ih (insertByIdOrd x acc)).trans ?_
    have h1 : (xs ++ insertByIdOrd x acc).Perm (xs ++ (x :: acc)) :=
      List.Perm.append_left xs (insertByIdOrd_perm x acc)
    exact h1.trans List.perm_middle

theorem sortById_perm (l : List IndexEntry) : (sortById l).Perm l := by
  simpa using sortByIdAux_perm l []

theorem insertByIdOrd_sorted (e : IndexEntry) (l : List IndexEntry)
    (hs : l.Sorted (fun a b : IndexEntry => a.id ≤ b.id)) :
    (insertByIdOrd e l).Sorted (fun a b : IndexEntry => a.id ≤ b.id) := by
  induction l with
  | nil => simp [insertByIdOrd]
  | cons x xs ih =>
    rw [List.sorted_cons] at hs
    by_cases h : strLtb e.id x.id = true
    · have hlt : e.id < x.id := (strLtb_iff _ _).mp h
      have he : insertByIdOrd e (x :: xs) = e :: x :: xs := by
        simp [insertByIdOrd, h]
      rw [he, List.sorted_cons]
      refine ⟨?_, List.sorted_cons.mpr hs⟩
      intro b hb
      rcases List.mem_cons.mp hb with rfl | hb
      · exact le_of_lt hlt
      · exact le_of_lt (lt_of_lt_of_le hlt (hs.1 b hb))
    · have hle : x.id ≤ e.id := le_of_not_lt (fun hlt => h ((strLtb_iff _ _).mpr hlt))
      have he : insertByIdOrd e (x :: xs) = x :: insertByIdOrd e xs := by
        simp [insertByIdOrd, h]
      rw [he, List.sorted_cons]
      refine ⟨?_, ih hs.2⟩
      intro b hb
      rcases List.mem_cons.mp ((insertByIdOrd_perm e xs).mem_iff.mp hb) with rfl | hb
      · exact hle
      · exact hs.1 b hb

theorem sortById_sorted (l : List IndexEntry) :
    (sortById l).Sorted (fun a b : IndexEntry => a.id ≤ b.id) := by
  suffices h : ∀ acc, acc.Sorted (fun a b : IndexEntry => a.id ≤ b.id) →
      (l.foldl (fun acc e => insertByIdOrd e acc) acc).Sorted
        (fun a b : IndexEntry => a.id ≤ b.id) by
    exact h [] (by simp)
  induction l with
  | nil => intro acc hacc; simpa using hacc
  | cons x xs ih =>
    intro acc hacc
    exact ih (insertByIdOrd x acc) (insertByIdOrd_sorted x acc hacc)

instance : IsAntisymm IndexEntry (fun a b : IndexEntry => a.id < b.id) :=
  ⟨fun _ _ h1 h2 => absurd (h1.trans h2) (lt_irrefl _)⟩

/-- Two sorted lists that are permutations of each other and have no
duplicate ids are equal. -/
theorem sorted_perm_nodup_ids_eq (l₁ l₂ : List IndexEntry)
    (hperm : l₁.Perm l₂)
    (h₁ : l₁.Sorted (fun a b : IndexEntry => a.id ≤ b.id))
    (h₂ : l₂.Sorted (fun a b : IndexEntry => a.id ≤ b.id))
    (hnd : (l₁.map IndexEntry.id).Nodup) : l₁ = l₂ := by
  have hnd₂ : (l₂.map IndexEntry.id).Nodup := (hperm.map IndexEntry.id).nodup_iff.mp hnd
  have hne₁ : l₁.Pairwise (fun a b : IndexEntry => a.id ≠ b.id) :=
    (List.pairwise_map).mp hnd
  have hne₂ : l₂.Pairwise (fun a b : IndexEntry => a.id ≠ b.id) :=
    (List.pairwise_map).mp hnd₂
  have hlt₁ : l₁.Sorted (fun a b : IndexEntry => a.id < b.id) :=
    (h₁.and hne₁).imp (fun h => lt_of_le_of_ne h.1 h.2)
  have hlt₂ : l₂.Sorted (fun a b : IndexEntry => a.id < b.id) :=
    (h₂.and hne₂).imp (fun h => lt_of_le_of_ne h.1 h.2)
  exact List.eq_of_perm_of_sorted hperm hlt₁ hlt₂

/-! ### Claim C5 -/

/-- C5 counterexample: the line `"h:t:i:x:5"` has exactly five
colon-separated fields and a non-numeric count field `"x"`, so the claim
says parsing fails with `Malformed`; the code parses it successfully,
storing the count verbatim. -/
theorem c5_counterexample :
    (splitOnChar ':' "h:t:i:x:5").length = 5 ∧
    parseU64 "x" = none ∧
    IndexEntry.from_str "h:t:i:x:5" =
      Except.ok ⟨"h", "t", "i", "x", 5⟩ := by decide

/-- C5 (amended): parsing an index line fails exactly when the line has
fewer than five colon-separated fields or its size field is non-numeric
(the count field is never parsed as a number and is kept verbatim);
otherwise it yields the entry {hash, type, id, count, size} from the five
fields in that order. -/
theorem c5_parse_line_spec (s : String) (e : IndexEntry) :
    ((IndexEntry.from_str s).isOk = true ↔
      5 ≤ (splitOnChar ':' s).length ∧
        (parseU64 ((splitOnChar ':' s).getD 4 "")).isSome = true) ∧
    (IndexEntry.from_str s = Except.ok e ↔
      5 ≤ (splitOnChar ':' s).length ∧
        parseU64 ((splitOnChar ':' s).getD 4 "") = some e.size ∧
        e.hash = (splitOnChar ':' s).getD 0 "" ∧
        e.type_id = (splitOnChar ':' s).getD 1 "" ∧
        e.id = (splitOnChar ':' s).getD 2 "" ∧
        e.unknown_count = (splitOnChar ':' s).getD 3 "") := by
  unfold IndexEntry.from_str
  by_cases h : (splitOnChar ':' s).length < 5
  · rw [if_pos h]
    constructor
    · constructor
      · intro hok; exact absurd hok (by simp [Except.isOk, Except.toBool])
      · rintro ⟨h5, -⟩; omega
    · constructor
      · intro he; exact absurd he (by simp)
      · rintro ⟨h5, -⟩; omega
  · have h5 : 5 ≤ (splitOnChar ':' s).length := le_of_not_lt h
    rw [if_neg h]
    cases hp : parseU64 ((splitOnChar ':' s).getD 4 "") with
    | none =>
      constructor
      · constructor
        · intro hok; exact absurd hok (by simp [Except.isOk, Except.toBool])
        · rintro ⟨-, hsome⟩; simp at hsome
      · constructor
        · intro he; exact absurd he (by simp)
        · rintro ⟨-, hv, -⟩; simp at hv
    | some v =>
      constructor
      · constructor
        · intro _; exact ⟨h5, by simp⟩
        · intro _; simp [Except.isOk, Except.toBool]
      · constructor
        · intro he
          cases he
          exact ⟨h5, rfl, rfl, rfl, rfl, rfl⟩
        · rintro ⟨-, hv, hh, ht, hi, hc⟩
          cases e
          simp_all

/-! ### Claim C3 -/

/-- C3 counterexample: two entries share the id `"a"` but carry different
(valid hex) hashes.  Swapping them is a permutation, yet the stable sort
keeps their relative order, so the concatenated raw bytes differ and so do
the Merkle root hashes. -/
theorem c3_counterexample :
    ([(⟨"11", "t", "a", "0", 1⟩ : IndexEntry), ⟨"00", "t", "a", "0", 1⟩].Perm
      [(⟨"00", "t", "a", "0", 1⟩ : IndexEntry), ⟨"11", "t", "a", "0", 1⟩]) ∧
    (hexDecode "11").isSome = true ∧ (hexDecode "00").isSome = true ∧
    calculate_root_hash [⟨"11", "t", "a", "0", 1⟩, ⟨"00", "t", "a", "0", 1⟩] ≠
      calculate_root_hash [⟨"00", "t", "a", "0", 1⟩, ⟨"11", "t", "a", "0", 1⟩] :=
  ⟨List.Perm.swap _ _ _, by decide, by decide, by decide⟩

/-- C3 (amended): for every list of index entries with pairwise-distinct
ids, every permutation of the list has the same Merkle root hash.  (For
lists with duplicate ids the stable sort preserves input order among
equal ids, so permutation invariance can fail — see the counterexample.) -/
theorem c3_permutation_invariant_distinct_ids (l l' : List IndexEntry)
    (hnd : (l.map IndexEntry.id).Nodup) (hperm : l'.Perm l) :
    calculate_root_hash l' = calculate_root_hash l := by
  have hsorteq : sortById l' = sortById l := by
    refine sorted_perm_nodup_ids_eq _ _ ?_ (sortById_sorted l') (sortById_sorted l) ?_
    · exact (sortById_perm l').trans (hperm.trans (sortById_perm l).symm)
    · have : ((sortById l').map IndexEntry.id).Nodup := by
        refine (((sortById_perm l').trans hperm).map IndexEntry.id).nodup_iff.mpr hnd
      exact this
  unfold calculate_root_hash
  rw [hsorteq]

/-- C3 witness: applying the amended theorem at a concrete two-element
list with distinct ids. -/
theorem c3_witness :
    (([(⟨"00", "t", "a", "0", 1⟩ : IndexEntry), ⟨"11", "t", "b", "0", 1⟩].map
        IndexEntry.id).Nodup) ∧
    calculate_root_hash [⟨"11", "t", "b", "0", 1⟩, ⟨"00", "t", "a", "0", 1⟩] =
      calculate_root_hash [⟨"00", "t", "a", "0", 1⟩, ⟨"11", "t", "b", "0", 1⟩] :=
  ⟨by decide, c3_permutation_invariant_distinct_ids _ _ (by decide) (List.Perm.swap _ _ _)⟩

/-! ## Documents (objects/document.rs)

`Uuid` values are modelled by their hyphenated string rendering (the code
only ever compares and prints them via `to_string`); `DateTime<Utc>`
values by their millisecond timestamp. -/

def nilUuid : String := "00000000-0000-0000-0000-000000000000"

inductive DocumentType where
  | Document : DocumentType
  | Collection : DocumentType
deriving DecidableEq, Repr

structure Document where
  id : String
  version : Nat
  message : String
  success : Bool
  blob_url_get : String
  blob_url_put : String
  blob_url_put_expires : Int
  last_modified : Int
  doc_type : DocumentType
  display_name : String
  current_page : Nat
  bookmarked : Bool
  parent : String
  hash : String
deriving DecidableEq, Repr

/-- `#[derive(Default)]` for `Document`: nil uuid, zeroes, empty strings,
epoch timestamps, `DocumentType::Document` (the `#[default]` variant). -/
def Document.default : Document :=
  ⟨nilUuid, 0, "", false, "", "", 0, 0, DocumentType.Document, "", 0, false, "", ""⟩

instance : Inhabited Document := ⟨Document.default⟩

/-! ## The sync fan-out of `get_files` (endpoints.rs:324-493) -/

/-- `V4Metadata` (endpoints.rs:29-45). -/
structure V4Metadata where
  visible_name : String
  doc_type : String
  parent : String
  last_modified : String
  version : Nat
  pinned : Bool
  deleted : Bool
deriving DecidableEq, Repr

/-- `V4Entry` (endpoints.rs:47-55). -/
structure V4Entry where
  hash : String
  doc_type : String
  doc_id : String
  subfiles : Nat
  size : Nat
deriving DecidableEq, Repr

/-- Root-index parsing in `get_files` (endpoints.rs:374-392): skip the
version line and empty lines, skip (not fail on) lines with fewer than 5
fields, and default non-numeric count/size fields to 0. -/
def parseRootIndexV4 (text : String) : List V4Entry :=
  ((rustLines text).drop 1).filterMap (fun line =>
    if line = "" then none
    else if (splitOnChar ':' line).length < 5 then none
    else some ⟨(splitOnChar ':' line).getD 0 "", (splitOnChar ':' line).getD 1 "",
      (splitOnChar ':' line).getD 2 "", (parseU32 ((splitOnChar ':' line).getD 3 "")).getD 0,
      (parseU64 ((splitOnChar ':' line).getD 4 "")).getD 0⟩)

/-- Locating the metadata hash inside a fetched doc schema
(endpoints.rs:420-429): skip the first line, take the first line containing
`.metadata`, and return its first `:`-field. -/
def findMetadataHashV4 (schemaText : String) : Option String :=
  (((rustLines schemaText).drop 1).find? (fun l => strContainsSub l ".metadata")).map
    (fun l => (splitOnChar ':' l).getD 0 "")

/-- The effectful collaborators of the per-entry sync task, made explicit:
`fetch` is a successful blob GET by hash (`none` = any request or status
failure), `parseMeta` is `serde_json::from_str::<V4Metadata>`, `parseUuid`
is `Uuid::parse_str` (rendered back to a string), `fromMillis` is
`chrono::DateTime::from_timestamp_millis`, `now` is `Utc::now()`. -/
structure FetchEnv where
  fetch : String → Option String
  parseMeta : String → Option V4Metadata
  parseUuid : String → Option String
  fromMillis : Int → Option Int
  now : Int

/-- The spawned per-entry task of `get_files` (endpoints.rs:399-481):
fetch the doc schema, locate and fetch the metadata blob, decode it, drop
the entry when `deleted`, otherwise build the `Document` record.  Every
failure returns `None` (the entry is silently dropped from the sync). -/
def processEntry (env : FetchEnv) (entry : V4Entry) : Option Document :=
  match env.fetch entry.hash with
  | none => none
  | some schemaText =>
    match findMetadataHashV4 schemaText with
    | none => none
    | some mHash =>
      match env.fetch mHash with
      | none => none
      | some body =>
        match env.parseMeta body with
        | none => none
        | some meta =>
          if meta.deleted then none
          else
            some
              { id := (env.parseUuid entry.doc_id).getD nilUuid
                version := meta.version
                message := ""
                success := true
                blob_url_get := ""
                blob_url_put := ""
                blob_url_put_expires := env.now
                last_modified := ((parseI64 meta.last_modified).bind env.fromMillis).getD 0
                doc_type := if meta.doc_type = "CollectionType" then DocumentType.Collection
                  else DocumentType.Document
                display_name := if meta.visible_name = "" then "Unknown"
                  else meta.visible_name
                current_page := 0
                bookmarked := meta.pinned
                parent := meta.parent
                hash := entry.hash }

/-- `join_all` + collection of `Ok(Some(doc))` results
(endpoints.rs:484-490): task order is the entry order and `None` results
are dropped. -/
def docsFromEntries (env : FetchEnv) (entries : List V4Entry) : List Document :=
  entries.filterMap (processEntry env)

/-- Steps 3-5 of `get_files` given the already-fetched root index text. -/
def getFilesDocs (env : FetchEnv) (rootBlobText : String) : List Document :=
  docsFromEntries env (parseRootIndexV4 rootBlobText)

theorem processEntry_hash (env : FetchEnv) (e : V4Entry) (d : Document)
    (h : processEntry env e = some d) : d.hash = e.hash := by
  unfold processEntry at h
  cases hf : env.fetch e.hash
  · simp [hf] at h
  case some schemaText =>
  cases hm : findMetadataHashV4 schemaText
  · simp [hf, hm] at h
  case some mHash =>
  cases hb : env.fetch mHash
  · simp [hf, hm, hb] at h
  case some body =>
  cases hp : env.parseMeta body
  · simp [hf, hm, hb, hp] at h
  case some meta =>
  by_cases hd : meta.deleted = true
  · simp [hf, hm, hb, hp, hd] at h
  · simp only [hf, hm, hb, hp, if_neg hd] at h
    cases h
    rfl

theorem processEntry_id (env : FetchEnv) (e : V4Entry) (d : Document)
    (h : processEntry env e = some d) :
    d.id = (env.parseUuid e.doc_id).getD nilUuid := by
  unfold processEntry at h
  cases hf : env.fetch e.hash
  · simp [hf] at h
  case some schemaText =>
  cases hm : findMetadataHashV4 schemaText
  · simp [hf, hm] at h
  case some mHash =>
  cases hb : env.fetch mHash
  · simp [hf, hm, hb] at h
  case some body =>
  cases hp : env.parseMeta body
  · simp [hf, hm, hb, hp] at h
  case some meta =>
  by_cases hd : meta.deleted = true
  · simp [hf, hm, hb, hp, hd] at h
  · simp only [hf, hm, hb, hp, if_neg hd] at h
    cases h
    rfl

/-! ## The file tree (objects/node.rs)

`HashMap<String, Node>` children maps are modelled as association lists
with `HashMap::insert` semantics (replace the value when the key is
present, add the binding otherwise); iteration order is the insertion
order, standing in for the map's arbitrary order. -/

def lookupKV {α : Type} (k : String) : List (String × α) → Option α
  | [] => none
  | (k₀, v) :: rest => if k₀ = k then some v else lookupKV k rest

/-- `HashMap::insert`: replace in place or append. -/
def insertKV {α : Type} (k : String) (v : α) : List (String × α) → List (String × α)
  | [] => [(k, v)]
  | (k₀, v₀) :: rest => if k₀ = k then (k₀, v) :: rest else (k₀, v₀) :: insertKV k v rest

/-- `HashMap::remove`, returning the removed value and the rest. -/
def extractKV {α : Type} (k : String) : List (String × α) → Option (α × List (String × α))
  | [] => none
  | (k₀, v₀) :: rest =>
    if k₀ = k then some (v₀, rest)
    else
      match extractKV k rest with
      | none => none
      | some (v, rest') => some (v, (k₀, v₀) :: rest')

inductive Node where
  | mk : Document → List (String × Node) → Node

def Node.document : Node → Document
  | .mk d _ => d

def Node.children : Node → List (String × Node)
  | .mk _ cs => cs

/-- `Node::new` (node.rs:12-17). -/
def Node.new (d : Document) : Node := Node.mk d []

/-- `Node::id` (node.rs:23-25): the document id rendered as a string. -/
def Node.id (n : Node) : String := n.document.id

/-- `Node::is_directory` (node.rs:19-21). -/
def Node.is_directory (n : Node) : Bool := n.document.doc_type = DocumentType.Collection

mutual

/-- All documents stored in a tree, root first, depth first. -/
def Node.allDocs : Node → List Document
  | .mk d cs => d :: allDocsL cs

def allDocsL : List (String × Node) → List Document
  | [] => []
  | (_, n) :: rest => n.allDocs ++ allDocsL rest

end

mutual

/-- All children-map keys appearing anywhere in a tree. -/
def Node.treeKeys : Node → List String
  | .mk _ cs => keysL cs

def keysL : List (String × Node) → List String
  | [] => []
  | (k, n) :: rest => k :: (n.treeKeys ++ keysL rest)

end

mutual

/-- All (parent document, child document) pairs of a tree. -/
def Node.edges : Node → List (Document × Document)
  | .mk d cs => edgesL d cs

def edgesL (p : Document) : List (String × Node) → List (Document × Document)
  | [] => []
  | (_, n) :: rest => (p, n.document) :: (n.edges ++ edgesL p rest)

end

mutual

/-- `find_node_mut` (node.rs:123-133) combined with the subsequent
`parent_node.children.insert(id, node)` (node.rs:104-108): depth-first
search for the first node whose id is `pid`; when found, insert `(k, c)`
into its children and report `true`, otherwise leave the tree unchanged
and report `false`. -/
def Node.insertUnder (pid k : String) (c : Node) : Node → Node × Bool
  | .mk d cs =>
    if d.id = pid then (Node.mk d (insertKV k c cs), true)
    else
      match insertUnderL pid k c cs with
      | (cs', found) => (Node.mk d cs', found)

def insertUnderL (pid k : String) (c : Node) : List (String × Node) → List (String × Node) × Bool
  | [] => ([], false)
  | (k₀, n₀) :: rest =>
    match Node.insertUnder pid k c n₀ with
    | (n₀', true) => ((k₀, n₀') :: rest, true)
    | (_, false) =>
      match insertUnderL pid k c rest with
      | (rest', found) => ((k₀, n₀) :: rest', found)

end

/-- `tree.root.children.insert(k, c)`. -/
def Node.insertRootChild (r : Node) (k : String) (c : Node) : Node :=
  Node.mk r.document (insertKV k c r.children)

/-- `tree.root.children.get_mut(key)` followed by
`.children.insert(k, c)` on the found node (node.rs:96-98). -/
def Node.insertAtKey (r : Node) (key k : String) (c : Node) : Node × Bool :=
  match lookupKV key r.children with
  | none => (r, false)
  | some t =>
    (Node.mk r.document (insertKV key (Node.mk t.document (insertKV k c t.children)) r.children),
     true)

/-- `FileTree::new` (node.rs:36-47): a root node with the nil uuid, name
`"/"` and collection type. -/
def rootDocument : Document :=
  { Document.default with display_name := "/", doc_type := DocumentType.Collection }

/-- The synthetic trash node's document (node.rs:53-60); its `parent` is
set to `""` explicitly in the source, which is also the default. -/
def trashDocument : Document :=
  { Document.default with display_name := "trash", doc_type := DocumentType.Collection }

/-- `documents.into_iter().map(|d| (d.id.to_string(), Node::new(d))).collect()`
(node.rs:63-66): later duplicates of a key overwrite earlier ones. -/
def buildIdToNode (docs : List Document) : List (String × Node) :=
  docs.foldl (fun m d => insertKV d.id (Node.new d) m) []

/-- One iteration of the inner `for id in current_remaining_ids` body
(node.rs:90-110), threading (tree, remaining, progress). -/
def passStep (acc : Node × List (String × Node) × Bool) (idn : String × Node) :
    Node × List (String × Node) × Bool :=
  let root := acc.1
  let rem := acc.2.1
  let prog := acc.2.2
  let parentId := idn.2.document.parent
  if parentId = "trash" then
    match extractKV idn.1 rem with
    | none => (root, rem, prog)
    | some (node, rem') =>
      match root.insertAtKey "trash" idn.1 node with
      | (root', true) => (root', rem', true)
      | (_, false) => (root, rem', prog)
  else
    match extractKV idn.1 rem with
    | none => (root, rem, prog)
    | some (node, rem') =>
      match Node.insertUnder parentId idn.1 node root with
      | (root', true) => (root', rem', true)
      | (_, false) => (root, rem, prog)

/-- One full pass over the snapshot of remaining ids (node.rs:88-110). -/
def onePass (root : Node) (rem : List (String × Node)) : Node × List (String × Node) × Bool :=
  rem.foldl passStep (root, rem, false)

/-- The `while !remaining.is_empty() && progress` loop (node.rs:87-111).
A productive pass removes at least one remaining entry, so
`rem.length + 1` fuel makes this exactly the unbounded loop. -/
def buildLoopGo : Nat → Node → List (String × Node) → Node × List (String × Node)
  | 0, root, rem => (root, rem)
  | fuel + 1, root, rem =>
    if rem.isEmpty then (root, rem)
    else
      match onePass root rem with
      | (root', rem', true) => buildLoopGo fuel root' rem'
      | (root', rem', false) => (root', rem')

structure FileTree where
  root : Node

/-- Insert a batch of `(id, node)` pairs directly under the root
(node.rs:76-83 and node.rs:113-117). -/
def foldRootInsert (root : Node) (ps : List (String × Node)) : Node :=
  ps.foldl (fun r p => r.insertRootChild p.1 p.2) root

/-- `FileTree::build` (node.rs:49-120): seed root and trash, place
empty-parent documents under root, iterate to a fixed point, and fall back
to root for everything unresolved. -/
def FileTree.build (docs : List Document) : FileTree :=
  let root1 := (Node.new rootDocument).insertRootChild "trash" (Node.new trashDocument)
  let idMap := buildIdToNode docs
  let rootsRem := idMap.partition (fun p => p.2.document.parent = "")
  let root2 := foldRootInsert root1 rootsRem.1
  match buildLoopGo (rootsRem.2.length + 1) root2 rootsRem.2 with
  | (root3, remFinal) => ⟨foldRootInsert root3 remFinal⟩

example :
    (FileTree.build [{ Document.default with id := "A", display_name := "docA" }]).root.allDocs =
      [rootDocument, trashDocument, { Document.default with id := "A", display_name := "docA" }] := by
  decide

example :
    ((FileTree.build [{ Document.default with id := "X", parent := "missing-id" }]).root.allDocs) =
      [rootDocument, trashDocument, { Document.default with id := "X", parent := "missing-id" }] := by
  decide

/-! ### Claim C7 -/

/-- C7: during a full sync, an entry whose decoded metadata has
`deleted = true` is mapped to `None` by the per-entry task, and every
document in the sync result comes from some entry whose task returned
`Some`; hence no Document for a deleted entry appears in the result,
regardless of the entry's physical presence in the index. -/
theorem c7_deleted_filtered (env : FetchEnv) (entries : List V4Entry) (entry : V4Entry)
    (schemaText mHash body : String) (meta : V4Metadata)
    (hf : env.fetch entry.hash = some schemaText)
    (hm : findMetadataHashV4 schemaText = some mHash)
    (hb : env.fetch mHash = some body)
    (hp : env.parseMeta body = some meta)
    (hd : meta.deleted = true) :
    processEntry env entry = none ∧
    ∀ d ∈ docsFromEntries env entries, ∃ e ∈ entries, processEntry env e = some d := by
  constructor
  · unfold processEntry
    simp [hf, hm, hb, hp, hd]
  · intro d hmem
    exact List.mem_filterMap.mp hmem

def c7wMeta : V4Metadata := ⟨"name", "DocumentType", "", "0", 1, false, true⟩

def c7wEnv : FetchEnv where
  fetch := fun h =>
    if h = "h1" then some "3\nmh:0:d1.metadata:0:2"
    else if h = "mh" then some "deleted-json" else none
  parseMeta := fun s => if s = "deleted-json" then some c7wMeta else none
  parseUuid := fun _ => none
  fromMillis := fun _ => none
  now := 0

/-- C7 witness: the theorem applied to a concrete environment in which the
entry's metadata decodes with `deleted = true`. -/
theorem c7_witness : processEntry c7wEnv ⟨"h1", "DocumentType", "d1", 4, 10⟩ = none :=
  (c7_deleted_filtered c7wEnv [⟨"h1", "DocumentType", "d1", 4, 10⟩]
    ⟨"h1", "DocumentType", "d1", 4, 10⟩ "3\nmh:0:d1.metadata:0:2" "mh" "deleted-json" c7wMeta
    (by decide) (by decide) (by decide) (by decide) (by decide)).1

/-! ### Claim C10 -/

/-- C10: entries whose id is not a valid UUID do not fail the sync and are
not dropped for that reason: each yields a Document whose id is the nil
UUID, so two such entries produce identical ids and collapse to a single
binding when the tree builder keys documents by id. -/
theorem c10_invalid_uuid_nil (env : FetchEnv) (e1 e2 : V4Entry)
    (s1 m1 b1 : String) (mt1 : V4Metadata) (s2 m2 b2 : String) (mt2 : V4Metadata)
    (hf1 : env.fetch e1.hash = some s1) (hm1 : findMetadataHashV4 s1 = some m1)
    (hb1 : env.fetch m1 = some b1) (hp1 : env.parseMeta b1 = some mt1)
    (hd1 : mt1.deleted = false)
    (hf2 : env.fetch e2.hash = some s2) (hm2 : findMetadataHashV4 s2 = some m2)
    (hb2 : env.fetch m2 = some b2) (hp2 : env.parseMeta b2 = some mt2)
    (hd2 : mt2.deleted = false)
    (hu1 : env.parseUuid e1.doc_id = none) (hu2 : env.parseUuid e2.doc_id = none) :
    ∃ d1 d2, processEntry env e1 = some d1 ∧ processEntry env e2 = some d2 ∧
      d1.id = nilUuid ∧ d2.id = nilUuid ∧
      (buildIdToNode [d1, d2]).map Prod.fst = [nilUuid] := by
  have h1 : ∃ d, processEntry env e1 = some d ∧ d.id = nilUuid := by
    unfold processEntry
    simp only [hf1, hm1, hb1, hp1, hd1, Bool.false_eq_true, if_false]
    exact ⟨_, rfl, by simp [hu1]⟩
  have h2 : ∃ d, processEntry env e2 = some d ∧ d.id = nilUuid := by
    unfold processEntry
    simp only [hf2, hm2, hb2, hp2, hd2, Bool.false_eq_true, if_false]
    exact ⟨_, rfl, by simp [hu2]⟩
  obtain ⟨d1, hpd1, hid1⟩ := h1
  obtain ⟨d2, hpd2, hid2⟩ := h2
  refine ⟨d1, d2, hpd1, hpd2, hid1, hid2, ?_⟩
  simp [buildIdToNode, insertKV, hid1, hid2]

def c10wMeta : V4Metadata := ⟨"name", "DocumentType", "", "0", 1, false, false⟩

def c10wEnv : FetchEnv where
  fetch := fun h =>
    if h = "h1" ∨ h = "h2" then some "3\nmh:0:a.metadata:0:2"
    else if h = "mh" then some "live-json" else none
  parseMeta := fun s => if s = "live-json" then some c10wMeta else none
  parseUuid := fun _ => none
  fromMillis := fun _ => none
  now := 0

/-- C10 witness: two concrete entries with non-UUID ids both produce
Documents with the nil id, which collide in the id-keyed node map. -/
theorem c10_witness :
    ∃ d1 d2, processEntry c10wEnv ⟨"h1", "DocumentType", "not-a-uuid", 4, 10⟩ = some d1 ∧
      processEntry c10wEnv ⟨"h2", "DocumentType", "also!bad", 4, 11⟩ = some d2 ∧
      d1.id = nilUuid ∧ d2.id = nilUuid ∧
      (buildIdToNode [d1, d2]).map Prod.fst = [nilUuid] :=
  c10_invalid_uuid_nil c10wEnv ⟨"h1", "DocumentType", "not-a-uuid", 4, 10⟩
    ⟨"h2", "DocumentType", "also!bad", 4, 11⟩
    "3\nmh:0:a.metadata:0:2" "mh" "live-json" c10wMeta
    "3\nmh:0:a.metadata:0:2" "mh" "live-json" c10wMeta
    (by decide) (by decide) (by decide) (by decide) (by decide)
    (by decide) (by decide) (by decide) (by decide) (by decide)
    (by decide) (by decide)

/-! ## Errors (error.rs) -/

/-- The error enum (error.rs:6-12); payloads of the wrapped foreign error
types are not needed by any claim, so only `Message` keeps its content. -/
inductive Error where
  | io : Error
  | reqwest : Error
  | serdeJson : Error
  | message : String → Error
deriving DecidableEq, Repr

/-! ## Local cache and filesystem (filesystem.rs) -/

/-- `CacheData` (filesystem.rs:7-11), the persisted cache record. -/
structure CacheData where
  hash : String
  documents : List Document
deriving DecidableEq, Repr

structure FileSystem where
  tree : FileTree
  current_hash : String
  docs : List Document
  current_path : String

/-- `FileTree::new` (node.rs:36-47): root only, no trash child. -/
def FileTree.new : FileTree := ⟨Node.new rootDocument⟩

/-- `FileSystem::new` (filesystem.rs:21-28). -/
def FileSystem.new : FileSystem := ⟨FileTree.new, "", [], "/"⟩

/-- The possible states of the on-disk cache file: absent, unreadable
(covers both `cache_path()` resolution failure and a read error), or
readable contents. -/
inductive CacheFile where
  | absent : CacheFile
  | unreadable : CacheFile
  | contents : String → CacheFile

/-- `FileSystem::load_cache` (filesystem.rs:30-44); `parseCache` models
`serde_json::from_str::<CacheData>`.  An absent file yields a fresh
filesystem; an unreadable or unparseable file is an error. -/
def FileSystem.load_cache (parseCache : String → Option CacheData) :
    CacheFile → Except Error FileSystem
  | CacheFile.absent => Except.ok FileSystem.new
  | CacheFile.unreadable => Except.error Error.io
  | CacheFile.contents s =>
    match parseCache s with
    | none => Except.error Error.serdeJson
    | some cache =>
      Except.ok ⟨FileTree.build cache.documents, cache.hash, cache.documents, "/"⟩

/-- The filesystem produced by `Client::from_token` (client.rs:19-31):
`FileSystem::load_cache().unwrap_or_else(|_| FileSystem::new())`. -/
def Client.from_token_filesystem (parseCache : String → Option CacheData)
    (cf : CacheFile) : FileSystem :=
  match FileSystem.load_cache parseCache cf with
  | Except.ok fs => fs
  | Except.error _ => FileSystem.new

/-- `FileSystem::save_cache` (filesystem.rs:46-62): replace docs, hash and
tree in memory and overwrite the persisted record. -/
def FileSystem.save_cache (fs : FileSystem) (hash : String) (documents : List Document) :
    FileSystem × CacheData :=
  (⟨FileTree.build documents, hash, documents, fs.current_path⟩, ⟨hash, documents⟩)

/-- `FileSystem::get_all_documents` (filesystem.rs:64-66). -/
def FileSystem.get_all_documents (fs : FileSystem) : List Document := fs.docs

/-- `Client::list_files` (client.rs:48-79).  `remoteHash` is the hash from
the successfully fetched and parsed root pointer; `getFilesResult` stands
for the `(docs, hash)` the `get_files` fan-out would produce.  The result
carries the returned documents, the updated in-memory filesystem, the
persisted cache record (unchanged when not rewritten), and whether the
full index read + metadata fan-out (`get_files`) ran at all. -/
def Client.list_files (remoteHash : String) (getFilesResult : List Document × String)
    (fs : FileSystem) (disk : Option CacheData) :
    List Document × FileSystem × Option CacheData × Bool :=
  if remoteHash = fs.current_hash then
    (fs.get_all_documents, fs, disk, false)
  else
    let fsd := fs.save_cache getFilesResult.2 getFilesResult.1
    (getFilesResult.1, fsd.1, some fsd.2, true)

/-! ### Claim C4 -/

/-- C4: when the remote root hash equals the locally cached hash,
`list_files` performs no index-blob fetch and no metadata fan-out, returns
exactly the cached document list, and leaves both the in-memory filesystem
and the persisted cache record untouched. -/
theorem c4_cache_hit_short_circuit (remoteHash : String) (gf : List Document × String)
    (fs : FileSystem) (disk : Option CacheData)
    (h : remoteHash = fs.current_hash) :
    Client.list_files remoteHash gf fs disk = (fs.get_all_documents, fs, disk, false) ∧
    fs.get_all_documents = fs.docs := by
  constructor
  · unfold Client.list_files
    rw [if_pos h]
  · rfl

/-- C4 witness: a fresh filesystem whose cached hash `""` matches the
remote hash. -/
theorem c4_witness :
    Client.list_files "" ([], "newhash") FileSystem.new none =
      (FileSystem.new.get_all_documents, FileSystem.new, none, false) :=
  (c4_cache_hit_short_circuit "" ([], "newhash") FileSystem.new none rfl).1

/-! ### Claim C9 -/

/-- C9: if the persisted cache file is absent or unreadable (including
unparseable contents), the cache load performed at client construction
returns the empty filesystem (hash `""`, no documents) instead of
failing. -/
theorem c9_load_cache_fallback (parseCache : String → Option CacheData) (cf : CacheFile)
    (h : cf = CacheFile.absent ∨ cf = CacheFile.unreadable ∨
      ∃ s, cf = CacheFile.contents s ∧ parseCache s = none) :
    Client.from_token_filesystem parseCache cf = FileSystem.new ∧
    (Client.from_token_filesystem parseCache cf).current_hash = "" ∧
    (Client.from_token_filesystem parseCache cf).docs = [] := by
  have hfs : Client.from_token_filesystem parseCache cf = FileSystem.new := by
    rcases h with rfl | rfl | ⟨s, rfl, hps⟩
    · rfl
    · rfl
    · unfold Client.from_token_filesystem FileSystem.load_cache
      simp [hps]
  exact ⟨hfs, by rw [hfs]; rfl, by rw [hfs]; rfl⟩

/-- C9 witness: unparseable contents fall back to the empty cache. -/
theorem c9_witness :
    Client.from_token_filesystem (fun _ => none) (CacheFile.contents "not json") =
        FileSystem.new ∧
      (Client.from_token_filesystem (fun _ => none)
        (CacheFile.contents "not json")).current_hash = "" ∧
      (Client.from_token_filesystem (fun _ => none)
        (CacheFile.contents "not json")).docs = [] :=
  c9_load_cache_fallback (fun _ => none) (CacheFile.contents "not json")
    (Or.inr (Or.inr ⟨"not json", rfl, rfl⟩))

/-! ## The remote store and the write path (client.rs, endpoints.rs)

The remote is the root pointer (hash + generation) plus a
content-addressed blob store.  Its generation-conditioned swap behaviour
is the external contract of spec §6 ("logical PUT ... must be conditioned
on the generation previously observed"): the client side of it is
`update_root` (endpoints.rs:552-574), whose `error_for_status()` surfaces
the rejection as a `reqwest` error. -/

structure Remote where
  rootHash : String
  generation : Nat
  blobs : List (String × String)
deriving DecidableEq, Repr

/-- `fetch_blob` (endpoints.rs:494-505) against the modelled store. -/
def fetchBlobR (r : Remote) (hash : String) : Option String := lookupKV hash r.blobs

/-- `upload_blob` (endpoints.rs:507-550): store the blob under its hash
(idempotent by hash on the remote). -/
def uploadBlobR (r : Remote) (hash content : String) : Remote :=
  { r with blobs := (hash, content) :: r.blobs }

/-- `update_root` (endpoints.rs:552-574) together with the remote CAS of
spec §6: the PUT succeeds iff the presented generation equals the remote's
current generation, advancing it; a mismatch is rejected and
`error_for_status()` turns it into an error (the spec's `Conflict`),
leaving the root pointer untouched. -/
def update_root (r : Remote) (hash : String) (generation : Nat) : Except Error Remote :=
  if generation = r.generation then
    Except.ok { r with rootHash := hash, generation := r.generation + 1 }
  else Except.error Error.reqwest

/-- `Vec::join("\n")`. -/
def joinWith (sep : String) : List String → String
  | [] => ""
  | [x] => x
  | x :: y :: rest => x ++ sep ++ joinWith sep (y :: rest)

/-- The observable outcome of one `modify_root_index` call: the final
result (the new remote state on success), the number of root-pointer
reads performed, the `(hash, content)` of the uploaded new index blob, and
the hash installed into the root pointer (when the commit succeeded). -/
structure RMWOutcome where
  result : Except Error Remote
  rootReads : Nat
  uploadedIndexBlob : Option (String × String)
  installedHash : Option String
deriving DecidableEq, Repr

/-- `Client::modify_root_index` (client.rs:572-628): read the root pointer
(hash + generation) once, fetch and split the root blob, run the modifier,
join the lines, hash them with `compute_hash` (plain SHA-256 of the
serialized text), upload the new blob, and swap the root conditioned on
the generation observed at the single read.  `readRemote` is the remote
state at the read; `commitRemote` is the state at upload/commit time,
which differs from `readRemote` exactly when a concurrent writer
intervened.  No path performs more than one root read and no path
retries. -/
def Client.modify_root_index (readRemote commitRemote : Remote)
    (modifier : List String → Except Error (List String)) : RMWOutcome :=
  let currentGeneration := readRemote.generation
  match fetchBlobR readRemote readRemote.rootHash with
  | none => ⟨Except.error Error.reqwest, 1, none, none⟩
  | some rootBlobStr =>
    match modifier (rustLines rootBlobStr) with
    | Except.error e => ⟨Except.error e, 1, none, none⟩
    | Except.ok rootLines' =>
      let newRootBlobStr := joinWith "\n" rootLines'
      let newRootHash := computeHash newRootBlobStr
      let uploaded := uploadBlobR commitRemote newRootHash newRootBlobStr
      match update_root uploaded newRootHash currentGeneration with
      | Except.error e => ⟨Except.error e, 1, some (newRootHash, newRootBlobStr), none⟩
      | Except.ok r2 => ⟨Except.ok r2, 1, some (newRootHash, newRootBlobStr), some newRootHash⟩

/-- The index-line scan shared by `rename_entry` and `delete_entry`
(client.rs:301-311, 342-351): first line with index ≥ 1, at least 3
`:`-fields, and field 2 equal to the document id. -/
def findTargetIdxGo (docId : String) : Nat → List String → Option Nat
  | _, [] => none
  | i, line :: rest =>
    if i ≠ 0 ∧ 3 ≤ (splitOnChar ':' line).length ∧ (splitOnChar ':' line).getD 2 "" = docId
    then some i
    else findTargetIdxGo docId (i + 1) rest

def findTargetIdx (docId : String) (lines : List String) : Option Nat :=
  findTargetIdxGo docId 0 lines

/-- The closure passed by `Client::delete_entry` (client.rs:338-361). -/
def deleteModifier (docId : String) (lines : List String) : Except Error (List String) :=
  match findTargetIdx docId lines with
  | some i => Except.ok (lines.eraseIdx i)
  | none => Except.error (Error.message "Document not found in root index")

/-- `Client::delete_entry` (client.rs:335-366): one `modify_root_index`
call, no retry. -/
def Client.delete_entry (readRemote commitRemote : Remote) (docId : String) : RMWOutcome :=
  Client.modify_root_index readRemote commitRemote (deleteModifier docId)

/-- The closure passed by `Client::upload_document` (client.rs:551-561):
append the new root-index entry at the end. -/
def uploadModifier (docSchemaHash docId : String) (docSchemaLen : Nat)
    (lines : List String) : Except Error (List String) :=
  Except.ok (lines ++ [docSchemaHash ++ ":DocumentType:" ++ docId ++ ":4:" ++
    toString docSchemaLen])

/-! ### Claim C2 -/

def c2wR0 : Remote := ⟨"rh", 5, [("rh", "3\nAA:DocumentType:doc1:4:10")]⟩

def c2wRc : Remote := ⟨"rh", 6, [("rh", "3\nAA:DocumentType:doc1:4:10")]⟩

/-- C2 counterexample: the remote generation advanced from 5 to 6 between
the root read and the commit, so the commit fails — and the delete
operation surfaces the failure after exactly one read-modify-write
attempt, performing no retry (the claim requires the full cycle to be
retried before surfacing). -/
theorem c2_counterexample :
    (Client.delete_entry c2wR0 c2wRc "doc1").result = Except.error Error.reqwest ∧
    (Client.delete_entry c2wR0 c2wRc "doc1").rootReads = 1 := by
  constructor
  · decide
  · decide

/-- C2 (amended): every write operation performs exactly one
read-modify-write attempt: when the remote generation advanced since the
single root read, the commit rejection is surfaced directly to the caller
as an error, with no re-read and no retry (by neither `modify_root_index`
nor any of its callers). -/
theorem c2_conflict_single_attempt_no_retry (readRemote commitRemote : Remote)
    (modifier : List String → Except Error (List String))
    (blob : String) (lines' : List String)
    (hfetch : fetchBlobR readRemote readRemote.rootHash = some blob)
    (hmod : modifier (rustLines blob) = Except.ok lines')
    (hgen : readRemote.generation ≠ commitRemote.generation) :
    (Client.modify_root_index readRemote commitRemote modifier).result =
      Except.error Error.reqwest ∧
    (Client.modify_root_index readRemote commitRemote modifier).rootReads = 1 := by
  unfold Client.modify_root_index
  simp only [hfetch, hmod]
  simp [update_root, uploadBlobR, hgen]

/-- C2 witness: the amended theorem applied at the counterexample's
concrete remotes. -/
theorem c2_witness :
    fetchBlobR c2wR0 c2wR0.rootHash = some "3\nAA:DocumentType:doc1:4:10" ∧
    deleteModifier "doc1" (rustLines "3\nAA:DocumentType:doc1:4:10") = Except.ok ["3"] ∧
    c2wR0.generation ≠ c2wRc.generation ∧
    ((Client.modify_root_index c2wR0 c2wRc (deleteModifier "doc1")).result =
        Except.error Error.reqwest ∧
      (Client.modify_root_index c2wR0 c2wRc (deleteModifier "doc1")).rootReads = 1) :=
  ⟨by decide, by decide, by decide,
    c2_conflict_single_attempt_no_retry c2wR0 c2wRc (deleteModifier "doc1")
      "3\nAA:DocumentType:doc1:4:10" ["3"] (by decide) (by decide) (by decide)⟩

/-! ### Claim C1 -/

def c1wRemote : Remote := ⟨"rh", 5, [("rh", "3\naa:DocumentType:b:4:1")]⟩

/-- C1 counterexample: creating a document with id `"a"` appends its entry
after the existing id `"b"` entry.  The installed root hash is the plain
SHA-256 of the serialized text — not the Merkle root hash of the entries —
and the stored blob's entries are in order `["b", "a"]`, not ascending by
id, contradicting both parts of the claim. -/
theorem c1_counterexample :
    (Client.modify_root_index c1wRemote c1wRemote (uploadModifier "bb" "a" 1)).installedHash =
      some (computeHash "3\naa:DocumentType:b:4:1\nbb:DocumentType:a:4:1") ∧
    (Client.modify_root_index c1wRemote c1wRemote
        (uploadModifier "bb" "a" 1)).uploadedIndexBlob =
      some (computeHash "3\naa:DocumentType:b:4:1\nbb:DocumentType:a:4:1",
        "3\naa:DocumentType:b:4:1\nbb:DocumentType:a:4:1") ∧
    ((rustLines "3\naa:DocumentType:b:4:1\nbb:DocumentType:a:4:1").drop 1).map
        (fun l => (splitOnChar ':' l).getD 2 "") = ["b", "a"] ∧
    strLtb "a" "b" = true ∧
    calculate_root_hash
        [⟨"aa", "DocumentType", "b", "4", 1⟩, ⟨"bb", "DocumentType", "a", "4", 1⟩] ≠
      Except.ok (computeHash "3\naa:DocumentType:b:4:1\nbb:DocumentType:a:4:1") := by
  refine ⟨by decide, by decide, by decide, by decide, by decide⟩

/-- C1 (amended): on a successful commit, the hash installed as the new
root pointer equals `compute_hash` — the hex SHA-256 of the serialized
index blob text (the modifier's lines joined with newlines, kept in their
existing order with new entries appended; no sorting and no Merkle
hash-of-hashes) — and the blob stored under that hash is exactly that
text, so the stored blob and its hash are consistent in the
hash-of-the-blob-bytes sense. -/
theorem c1_commit_hash_of_serialized_blob (readRemote commitRemote : Remote)
    (modifier : List String → Except Error (List String))
    (blob : String) (lines' : List String)
    (hfetch : fetchBlobR readRemote readRemote.rootHash = some blob)
    (hmod : modifier (rustLines blob) = Except.ok lines')
    (hgen : readRemote.generation = commitRemote.generation) :
    (Client.modify_root_index readRemote commitRemote modifier).installedHash =
      some (computeHash (joinWith "\n" lines')) ∧
    (Client.modify_root_index readRemote commitRemote modifier).uploadedIndexBlob =
      some (computeHash (joinWith "\n" lines'), joinWith "\n" lines') ∧
    ∃ r2, (Client.modify_root_index readRemote commitRemote modifier).result = Except.ok r2 ∧
      r2.rootHash = computeHash (joinWith "\n" lines') ∧
      lookupKV (computeHash (joinWith "\n" lines')) r2.blobs = some (joinWith "\n" lines') := by
  unfold Client.modify_root_index
  simp only [hfetch, hmod]
  simp [update_root, uploadBlobR, hgen, lookupKV]

/-- C1 witness: the amended theorem at the counterexample's concrete
input, where the commit succeeds. -/
theorem c1_witness :
    fetchBlobR c1wRemote c1wRemote.rootHash = some "3\naa:DocumentType:b:4:1" ∧
    uploadModifier "bb" "a" 1 (rustLines "3\naa:DocumentType:b:4:1") =
      Except.ok ["3", "aa:DocumentType:b:4:1", "bb:DocumentType:a:4:1"] ∧
    ((Client.modify_root_index c1wRemote c1wRemote (uploadModifier "bb" "a" 1)).installedHash =
        some (computeHash (joinWith "\n"
          ["3", "aa:DocumentType:b:4:1", "bb:DocumentType:a:4:1"])) ∧
      (Client.modify_root_index c1wRemote c1wRemote
          (uploadModifier "bb" "a" 1)).uploadedIndexBlob =
        some (computeHash (joinWith "\n"
            ["3", "aa:DocumentType:b:4:1", "bb:DocumentType:a:4:1"]),
          joinWith "\n" ["3", "aa:DocumentType:b:4:1", "bb:DocumentType:a:4:1"]) ∧
      ∃ r2, (Client.modify_root_index c1wRemote c1wRemote
          (uploadModifier "bb" "a" 1)).result = Except.ok r2 ∧
        r2.rootHash = computeHash (joinWith "\n"
          ["3", "aa:DocumentType:b:4:1", "bb:DocumentType:a:4:1"]) ∧
        lookupKV (computeHash (joinWith "\n"
            ["3", "aa:DocumentType:b:4:1", "bb:DocumentType:a:4:1"])) r2.blobs =
          some (joinWith "\n" ["3", "aa:DocumentType:b:4:1", "bb:DocumentType:a:4:1"])) :=
  ⟨by decide, by decide,
    c1_commit_hash_of_serialized_blob c1wRemote c1wRemote (uploadModifier "bb" "a" 1)
      "3\naa:DocumentType:b:4:1" ["3", "aa:DocumentType:b:4:1", "bb:DocumentType:a:4:1"]
      (by decide) (by decide) rfl⟩

/-! ## Rename (client.rs:197-333)

The metadata JSON is decoded into a `serde_json::Value`, i.e. an open
object: modelled as an association list of fields with opaque values, so
unknown fields round-trip by construction of the model only if the code
actually preserves them — which is what C8 asserts and what the theorems
below check via the field-update operations the code performs. -/

inductive JsonVal where
  | str : String → JsonVal
  | num : Nat → JsonVal
  | bool : Bool → JsonVal
  | other : String → JsonVal
deriving DecidableEq, Repr

/-- `Value::as_u64`. -/
def JsonVal.as_u64 : JsonVal → Option Nat
  | JsonVal.num n => some n
  | _ => none

/-- The metadata rewrite of `rename_entry` (client.rs:228-246): set
`visibleName`, increment `version` when present as a u64, refresh
`lastModified`, set `metadatamodified`; all other fields of the decoded
`serde_json::Value` are untouched. -/
def renameMetadataJson (meta : List (String × JsonVal)) (newName : String)
    (nowMillis : Int) : List (String × JsonVal) :=
  let m1 := insertKV "visibleName" (JsonVal.str newName) meta
  let m2 :=
    match (lookupKV "version" m1).bind JsonVal.as_u64 with
    | some v => insertKV "version" (JsonVal.num (v + 1)) m1
    | none => m1
  let m3 := insertKV "lastModified" (JsonVal.str (toString nowMillis)) m2
  insertKV "metadatamodified" (JsonVal.bool true) m3

/-- The scan for the metadata line (client.rs:206-224): first line (any
index, including the version line) containing `.metadata`, with its first
`:`-field; `rename_entry` fails unless a line is found and that field is
non-empty. -/
def findMetadataLineGo : Nat → List String → Option (Nat × String)
  | _, [] => none
  | i, l :: rest =>
    if strContainsSub l ".metadata" then some (i, (splitOnChar ':' l).getD 0 "")
    else findMetadataLineGo (i + 1) rest

def findMetadataLine (lines : List String) : Option (Nat × String) :=
  findMetadataLineGo 0 lines

/-- The schema rebuild of `rename_entry` (client.rs:264-275): replace line
`i` by `"{new_hash}:0:{parts[2]}:0:{new_len}"` built from the old line's
third field; every other line is untouched.  (The code indexes `parts[2]`
unconditionally; the accompanying theorem assumes the metadata line has at
least 3 fields, where `getD` agrees with the Rust indexing.) -/
def renameSchemaLines (lines : List String) (i : Nat) (newMetadataHash : String)
    (newMetadataLen : Nat) : List String :=
  let newLine := newMetadataHash ++ ":0:" ++
    ((splitOnChar ':' (lines.getD i "")).getD 2 "") ++ ":0:" ++ toString newMetadataLen
  lines.set i newLine

theorem lookupKV_insertKV_self {α : Type} (k : String) (v : α) (l : List (String × α)) :
    lookupKV k (insertKV k v l) = some v := by
  induction l with
  | nil => simp [insertKV, lookupKV]
  | cons p rest ih =>
    by_cases h : p.1 = k
    · simp [insertKV, lookupKV, h]
    · simp [insertKV, lookupKV, h, ih]

theorem lookupKV_insertKV_ne {α : Type} (k k' : String) (v : α) (l : List (String × α))
    (h : k' ≠ k) : lookupKV k (insertKV k' v l) = lookupKV k l := by
  induction l with
  | nil => simp [insertKV, lookupKV, h]
  | cons p rest ih =>
    by_cases hp : p.1 = k'
    · simp [insertKV, lookupKV, hp, h]
    · simp only [insertKV, if_neg hp, lookupKV]
      by_cases hk : p.1 = k
      · simp [hk]
      · simp [hk, ih]

/-! ### Claim C8 -/

/-- C8: renaming rebuilds the schema changing only the (first-matching)
metadata line — every other line is byte-for-byte unchanged — and the
rewritten metadata JSON preserves every field other than `visibleName`,
`version`, `lastModified` and `metadatamodified` (display name, version,
modification timestamp, modified flag), while setting the display name and
the modified flag. -/
theorem c8_rename_frame (lines : List String) (i : Nat) (mh : String)
    (meta : List (String × JsonVal)) (newName : String) (now : Int)
    (newHash : String) (newLen : Nat) (j : Nat) (k : String)
    (hfind : findMetadataLine lines = some (i, mh)) (hne : mh ≠ "")
    (hparts : 3 ≤ (splitOnChar ':' (lines.getD i "")).length)
    (hj : j ≠ i)
    (hk : k ≠ "visibleName" ∧ k ≠ "version" ∧ k ≠ "lastModified" ∧ k ≠ "metadatamodified") :
    (renameSchemaLines lines i newHash newLen)[j]? = lines[j]? ∧
    lookupKV k (renameMetadataJson meta newName now) = lookupKV k meta ∧
    lookupKV "visibleName" (renameMetadataJson meta newName now) =
      some (JsonVal.str newName) ∧
    lookupKV "metadatamodified" (renameMetadataJson meta newName now) =
      some (JsonVal.bool true) ∧
    lookupKV "lastModified" (renameMetadataJson meta newName now) =
      some (JsonVal.str (toString now)) := by
  obtain ⟨hk1, hk2, hk3, hk4⟩ := hk
  refine ⟨?_, ?_, ?_, ?_, ?_⟩
  · unfold renameSchemaLines
    exact List.getElem?_set_ne hj.symm
  · unfold renameMetadataJson
    cases hv : (lookupKV "version" (insertKV "visibleName" (JsonVal.str newName) meta)).bind
        JsonVal.as_u64 with
    | none =>
      simp only [hv]
      rw [lookupKV_insertKV_ne _ _ _ _ (Ne.symm hk4), lookupKV_insertKV_ne _ _ _ _ (Ne.symm hk3),
        lookupKV_insertKV_ne _ _ _ _ (Ne.symm hk1)]
    | some v =>
      simp only [hv]
      rw [lookupKV_insertKV_ne _ _ _ _ (Ne.symm hk4), lookupKV_insertKV_ne _ _ _ _ (Ne.symm hk3),
        lookupKV_insertKV_ne _ _ _ _ (Ne.symm hk2), lookupKV_insertKV_ne _ _ _ _ (Ne.symm hk1)]
  · unfold renameMetadataJson
    cases hv : (lookupKV "version" (insertKV "visibleName" (JsonVal.str newName) meta)).bind
        JsonVal.as_u64 with
    | none =>
      simp only [hv]
      rw [lookupKV_insertKV_ne _ _ _ _ (by decide), lookupKV_insertKV_ne _ _ _ _ (by decide),
        lookupKV_insertKV_self]
    | some v =>
      simp only [hv]
      rw [lookupKV_insertKV_ne _ _ _ _ (by decide), lookupKV_insertKV_ne _ _ _ _ (by decide),
        lookupKV_insertKV_ne _ _ _ _ (by decide), lookupKV_insertKV_self]
  · unfold renameMetadataJson
    cases hv : (lookupKV "version" (insertKV "visibleName" (JsonVal.str newName) meta)).bind
        JsonVal.as_u64 with
    | none => simp only [hv]; rw [lookupKV_insertKV_self]
    | some v => simp only [hv]; rw [lookupKV_insertKV_self]
  · unfold renameMetadataJson
    cases hv : (lookupKV "version" (insertKV "visibleName" (JsonVal.str newName) meta)).bind
        JsonVal.as_u64 with
    | none =>
      simp only [hv]
      rw [lookupKV_insertKV_ne _ _ _ _ (by decide), lookupKV_insertKV_self]
    | some v =>
      simp only [hv]
      rw [lookupKV_insertKV_ne _ _ _ _ (by decide), lookupKV_insertKV_self]

/-- C8 witness: a concrete schema with a metadata line at index 2 and a
metadata object carrying an unknown field `"remoteExtension"`, which the
rename leaves intact while line 1 stays byte-for-byte identical. -/
theorem c8_witness :
    (renameSchemaLines ["3", "ch:0:d.content:0:7", "mh:0:d.metadata:0:9"] 2 "newmh" 11)[1]? =
        (["3", "ch:0:d.content:0:7", "mh:0:d.metadata:0:9"] : List String)[1]? ∧
      lookupKV "remoteExtension"
          (renameMetadataJson [("visibleName", JsonVal.str "old"),
            ("remoteExtension", JsonVal.other "opaque-value")] "new" 99) =
        lookupKV "remoteExtension" [("visibleName", JsonVal.str "old"),
          ("remoteExtension", JsonVal.other "opaque-value")] ∧
      lookupKV "visibleName"
          (renameMetadataJson [("visibleName", JsonVal.str "old"),
            ("remoteExtension", JsonVal.other "opaque-value")] "new" 99) =
        some (JsonVal.str "new") ∧
      lookupKV "metadatamodified"
          (renameMetadataJson [("visibleName", JsonVal.str "old"),
            ("remoteExtension", JsonVal.other "opaque-value")] "new" 99) =
        some (JsonVal.bool true) ∧
      lookupKV "lastModified"
          (renameMetadataJson [("visibleName", JsonVal.str "old"),
            ("remoteExtension", JsonVal.other "opaque-value")] "new" 99) =
        some (JsonVal.str (toString (99 : Int))) :=
  c8_rename_frame ["3", "ch:0:d.content:0:7", "mh:0:d.metadata:0:9"] 2 "mh"
    [("visibleName", JsonVal.str "old"), ("remoteExtension", JsonVal.other "opaque-value")]
    "new" 99 "newmh" 11 1 "remoteExtension"
    (by decide) (by decide) (by decide) (by decide)
    ⟨by decide, by decide, by decide, by decide⟩

/-! ## Infrastructure for reasoning about the tree builder -/

mutual

def Node.size : Node → Nat
  | .mk _ cs => 1 + sizeL cs

def sizeL : List (String × Node) → Nat
  | [] => 0
  | (_, n) :: rest => n.size + sizeL rest

end

@[simp] theorem Node.document_mk (d : Document) (cs : List (String × Node)) :
    (Node.mk d cs).document = d := rfl

@[simp] theorem Node.children_mk (d : Document) (cs : List (String × Node)) :
    (Node.mk d cs).children = cs := rfl

@[simp] theorem Node.id_mk (d : Document) (cs : List (String × Node)) :
    (Node.mk d cs).id = d.id := rfl

theorem Node.size_pos (n : Node) : 1 ≤ n.size := by
  cases n with
  | mk d cs => rw [Node.size]; omega

/-- Mutual structural induction for `Node` and its children lists, proved
by strong induction on the size measure. -/
theorem node_mutual_ind (P : Node → Prop) (Q : List (String × Node) → Prop)
    (hn : ∀ d cs, Q cs → P (Node.mk d cs))
    (hnil : Q [])
    (hcons : ∀ k n rest, P n → Q rest → Q ((k, n) :: rest)) :
    (∀ n, P n) ∧ (∀ l, Q l) := by
  have key : ∀ N, (∀ n : Node, n.size ≤ N → P n) ∧ (∀ l, sizeL l ≤ N → Q l) := by
    intro N
    induction N with
    | zero =>
      constructor
      · intro n hsz
        exact absurd hsz (by have := Node.size_pos n; omega)
      · intro l hsz
        cases l with
        | nil => exact hnil
        | cons p rest =>
          exfalso
          cases p with
          | mk k n =>
            rw [sizeL] at hsz
            have := Node.size_pos n
            omega
    | succ N ih =>
      have hnode : ∀ n : Node, n.size ≤ N + 1 → P n := by
        intro n hsz
        cases n with
        | mk d cs =>
          apply hn
          apply ih.2
          rw [Node.size] at hsz
          omega
      refine ⟨hnode, ?_⟩
      intro l
      induction l with
      | nil => intro _; exact hnil
      | cons p rest ihl =>
        intro hsz
        cases p with
        | mk k n =>
          rw [sizeL] at hsz
          refine hcons k n rest (hnode n (by omega)) (ihl (by omega))
  exact ⟨fun n => (key n.size).1 n le_rfl, fun l => (key (sizeL l)).2 l le_rfl⟩

/-! ### Association-list lemmas -/

theorem insertKV_append {α : Type} (k : String) (v : α) (l : List (String × α))
    (h : k ∉ l.map Prod.fst) : insertKV k v l = l ++ [(k, v)] := by
  induction l with
  | nil => rfl
  | cons p rest ih =>
    rw [List.map_cons, List.mem_cons] at h
    push_neg at h
    cases p with
    | mk k₀ v₀ =>
      rw [insertKV, if_neg (Ne.symm h.1), ih h.2]
      rfl

theorem extractKV_lookup {α : Type} (k : String) (l : List (String × α)) (v : α)
    (rest : List (String × α)) (h : extractKV k l = some (v, rest)) :
    lookupKV k l = some v := by
  induction l generalizing rest with
  | nil => simp [extractKV] at h
  | cons p tail ih =>
    rw [extractKV] at h
    rw [lookupKV]
    by_cases hp : p.1 = k
    · cases p
      simp_all
    · cases p with
      | mk k₀ v₀ =>
        simp only at hp
        rw [if_neg hp] at h ⊢
        cases hrec : extractKV k tail with
        | none => rw [hrec] at h; simp at h
        | some pr =>
          rw [hrec] at h
          cases pr with
          | mk v' rest' =>
            simp only [Option.some.injEq, Prod.mk.injEq] at h
            exact h.1 ▸ ih rest' (by rw [hrec, h.1])

theorem extractKV_perm {α : Type} (k : String) (l : List (String × α)) (v : α)
    (rest : List (String × α)) (h : extractKV k l = some (v, rest)) :
    l.Perm ((k, v) :: rest) := by
  induction l generalizing rest with
  | nil => simp [extractKV] at h
  | cons p tail ih =>
    rw [extractKV] at h
    by_cases hp : p.1 = k
    · cases p
      simp_all
    · cases p with
      | mk k₀ v₀ =>
        simp only at hp
        rw [if_neg hp] at h
        cases hrec : extractKV k tail with
        | none => rw [hrec] at h; simp at h
        | some pr =>
          rw [hrec] at h
          cases pr with
          | mk v' rest' =>
            simp only [Option.some.injEq, Prod.mk.injEq] at h
            obtain ⟨hv, hrest⟩ := h
            subst hv hrest
            exact ((ih rest' hrec).cons (k₀, v₀)).trans (List.Perm.swap _ _ _)

theorem extractKV_isSome_of_mem {α : Type} (k : String) (v : α) (l : List (String × α))
    (h : (k, v) ∈ l) : extractKV k l ≠ none := by
  induction l with
  | nil => simp at h
  | cons p rest ih =>
    rw [extractKV]
    by_cases hp : p.1 = k
    · cases p; simp_all
    · cases p with
      | mk k₀ v₀ =>
        simp only at hp
        rw [if_neg hp]
        rcases List.mem_cons.mp h with heq | hmem
        · cases heq; simp at hp
        · cases hrec : extractKV k rest with
          | none => exact absurd hrec (ih hmem)
          | some pr => cases pr; simp

/-- Decompose a list at the first occurrence of a key found by `lookupKV`;
`insertKV` replaces exactly that occurrence. -/
theorem lookupKV_decomp {α : Type} (k : String) (l : List (String × α)) (t : α)
    (h : lookupKV k l = some t) :
    ∃ pre post, l = pre ++ (k, t) :: post ∧ (∀ p ∈ pre, p.1 ≠ k) ∧
      ∀ v, insertKV k v l = pre ++ (k, v) :: post := by
  induction l with
  | nil => simp [lookupKV] at h
  | cons p rest ih =>
    rw [lookupKV] at h
    by_cases hp : p.1 = k
    · cases p with
      | mk k₀ v₀ =>
        simp only at hp
        subst hp
        rw [if_pos rfl] at h
        cases h
        refine ⟨[], rest, by simp, by simp, ?_⟩
        intro v
        rw [insertKV, if_pos rfl]
        simp
    · cases p with
      | mk k₀ v₀ =>
        simp only at hp
        rw [if_neg hp] at h
        obtain ⟨pre, post, hl, hpre, hins⟩ := ih h
        refine ⟨(k₀, v₀) :: pre, post, by rw [hl]; simp, ?_, ?_⟩
        · intro q hq
          rcases List.mem_cons.mp hq with rfl | hmem
          · exact hp
          · exact hpre q hmem
        · intro v
          rw [insertKV, if_neg hp, hins v]
          simp

theorem map_fst_subset_keysL (l : List (String × Node)) :
    ∀ k ∈ l.map Prod.fst, k ∈ keysL l := by
  induction l with
  | nil => simp
  | cons p rest ih =>
    cases p with
    | mk k₀ n =>
      intro k hk
      rw [keysL]
      rw [List.map_cons] at hk
      rcases List.mem_cons.mp hk with rfl | hmem
      · exact List.mem_cons_self _ _
      · exact List.mem_cons_of_mem _ (List.mem_append_right _ (ih k hmem))

/-! ### Append-distribution of the tree folds -/

theorem allDocsL_append (l₁ l₂ : List (String × Node)) :
    allDocsL (l₁ ++ l₂) = allDocsL l₁ ++ allDocsL l₂ := by
  induction l₁ with
  | nil => simp [allDocsL]
  | cons p rest ih =>
    cases p with
    | mk k n =>
      rw [List.cons_append, allDocsL, allDocsL, ih, List.append_assoc]

theorem keysL_append (l₁ l₂ : List (String × Node)) :
    keysL (l₁ ++ l₂) = keysL l₁ ++ keysL l₂ := by
  induction l₁ with
  | nil => simp [keysL]
  | cons p rest ih =>
    cases p with
    | mk k n =>
      rw [List.cons_append, keysL, keysL, ih]
      simp [List.append_assoc]

theorem edgesL_append (p : Document) (l₁ l₂ : List (String × Node)) :
    edgesL p (l₁ ++ l₂) = edgesL p l₁ ++ edgesL p l₂ := by
  induction l₁ with
  | nil => simp [edgesL]
  | cons q rest ih =>
    cases q with
    | mk k n =>
      rw [List.cons_append, edgesL, edgesL, ih]
      simp [List.append_assoc]

/-! ### Preservation lemmas for `insertUnder` -/

theorem insertUnder_document (pid k : String) (c n : Node) :
    ((Node.insertUnder pid k c n).1).document = n.document := by
  cases n with
  | mk d cs =>
    rw [Node.insertUnder]
    by_cases hid : d.id = pid
    · rw [if_pos hid]
      rfl
    · rw [if_neg hid]
      rcases h : insertUnderL pid k c cs with ⟨cs', f⟩
      simp

theorem insertUnderL_lookup_pres (pid k : String) (c : Node) (l : List (String × Node)) :
    ∀ q t, lookupKV q l = some t →
      ∃ t', lookupKV q (insertUnderL pid k c l).1 = some t' ∧
        (t' = t ∨ t' = (Node.insertUnder pid k c t).1) := by
  induction l with
  | nil => intro q t h; simp [lookupKV] at h
  | cons p rest ih =>
    intro q t h
    cases p with
    | mk k₀ n₀ =>
      rw [lookupKV] at h
      rw [insertUnderL]
      rcases hn : Node.insertUnder pid k c n₀ with ⟨n₀', f⟩
      cases f with
      | true =>
        by_cases hq : k₀ = q
        · rw [if_pos hq] at h
          cases h
          refine ⟨n₀', by simp [lookupKV, hq], Or.inr ?_⟩
          rw [hn]
        · rw [if_neg hq] at h
          exact ⟨t, by simp [lookupKV, hq, h], Or.inl rfl⟩
      | false =>
        rcases hr : insertUnderL pid k c rest with ⟨rest', f'⟩
        by_cases hq : k₀ = q
        · rw [if_pos hq] at h
          cases h
          exact ⟨t, by simp [lookupKV, hq], Or.inl rfl⟩
        · rw [if_neg hq] at h
          obtain ⟨t', ht', hd⟩ := ih q t h
          rw [hr] at ht'
          refine ⟨t', ?_, hd⟩
          simpa [lookupKV, hq] using ht'

theorem insertUnder_lookup_pres (pid k : String) (c : Node) (n : Node) :
    ∀ q t, q ≠ k → lookupKV q n.children = some t →
      ∃ t', lookupKV q ((Node.insertUnder pid k c n).1).children = some t' ∧
        (t' = t ∨ t' = (Node.insertUnder pid k c t).1) := by
  cases n with
  | mk d cs =>
    intro q t hqk h
    rw [Node.children_mk] at h
    rw [Node.insertUnder]
    by_cases hid : d.id = pid
    · rw [if_pos hid]
      refine ⟨t, ?_, Or.inl rfl⟩
      simp only [Node.children_mk]
      rw [lookupKV_insertKV_ne q k c cs (Ne.symm hqk)]
      exact h
    · rw [if_neg hid]
      rcases hl : insertUnderL pid k c cs with ⟨cs', f⟩
      obtain ⟨t', ht', hd⟩ := insertUnderL_lookup_pres pid k c cs q t h
      rw [hl] at ht'
      exact ⟨t', by simpa using ht', hd⟩

theorem perm_pull_front {α : Type} (A K B : List α) : (A ++ (K ++ B)).Perm (K ++ (A ++ B)) := by
  rw [← List.append_assoc, ← List.append_assoc]
  exact (List.perm_append_comm).append_right B

theorem perm_append_swap_right {α : Type} (A C R : List α) :
    ((A ++ C) ++ R).Perm ((A ++ R) ++ C) := by
  rw [List.append_assoc, List.append_assoc]
  exact List.Perm.append_left A List.perm_append_comm

/-- The conclusions of the insertion-effect lemma at the node level:
a failed search leaves the node unchanged; a successful insertion adds
exactly the inserted subtree's documents and keys (plus the new key `k`)
and one new edge from a node whose id is `pid`. -/
def InsEffectNode (pid k : String) (c : Node) (n : Node) : Prop :=
  ((Node.insertUnder pid k c n).2 = false → (Node.insertUnder pid k c n).1 = n) ∧
  ((Node.insertUnder pid k c n).2 = true →
    ((Node.insertUnder pid k c n).1.allDocs).Perm (n.allDocs ++ c.allDocs) ∧
    ((Node.insertUnder pid k c n).1.treeKeys).Perm ((k :: c.treeKeys) ++ n.treeKeys) ∧
    ∃ p, p ∈ n.allDocs ∧ p.id = pid ∧
      ((Node.insertUnder pid k c n).1.edges).Perm (((p, c.document) :: c.edges) ++ n.edges))

def InsEffectList (pid k : String) (c : Node) (l : List (String × Node)) : Prop :=
  ((insertUnderL pid k c l).2 = false → (insertUnderL pid k c l).1 = l) ∧
  ((insertUnderL pid k c l).2 = true →
    (allDocsL (insertUnderL pid k c l).1).Perm (allDocsL l ++ c.allDocs) ∧
    (keysL (insertUnderL pid k c l).1).Perm ((k :: c.treeKeys) ++ keysL l) ∧
    ∃ p, p ∈ allDocsL l ∧ p.id = pid ∧
      ∀ pd, (edgesL pd (insertUnderL pid k c l).1).Perm
        (((p, c.document) :: c.edges) ++ edgesL pd l))

theorem insertUnder_effect (pid k : String) (c : Node) :
    (∀ n, k ∉ n.treeKeys → InsEffectNode pid k c n) ∧
    (∀ l, k ∉ keysL l → InsEffectList pid k c l) := by
  apply node_mutual_ind (P := fun n => k ∉ n.treeKeys → InsEffectNode pid k c n)
    (Q := fun l => k ∉ keysL l → InsEffectList pid k c l)
  · -- node case
    intro d cs hQ hfresh
    have hfresh' : k ∉ keysL cs := by rwa [Node.treeKeys] at hfresh
    by_cases hid : d.id = pid
    · have hrw : Node.insertUnder pid k c (Node.mk d cs) = (Node.mk d (insertKV k c cs), true) := by
        rw [Node.insertUnder, if_pos hid]
      have hkm : k ∉ cs.map Prod.fst := fun hmem => hfresh' (map_fst_subset_keysL cs k hmem)
      have hins : insertKV k c cs = cs ++ [(k, c)] := insertKV_append k c cs hkm
      constructor
      · intro hf
        rw [hrw] at hf
        simp at hf
      · intro _
        rw [hrw]
        refine ⟨?_, ?_, d, List.mem_cons_self _ _, hid, ?_⟩
        · show (Node.mk d (insertKV k c cs)).allDocs.Perm ((Node.mk d cs).allDocs ++ c.allDocs)
          rw [Node.allDocs, Node.allDocs, hins, allDocsL_append, allDocsL, allDocsL,
            List.append_nil, List.cons_append]
        · show (Node.mk d (insertKV k c cs)).treeKeys.Perm
            ((k :: c.treeKeys) ++ (Node.mk d cs).treeKeys)
          rw [Node.treeKeys, Node.treeKeys, hins, keysL_append, keysL, keysL, List.append_nil]
          exact List.perm_append_comm
        · show (Node.mk d (insertKV k c cs)).edges.Perm
            (((d, c.document) :: c.edges) ++ (Node.mk d cs).edges)
          rw [Node.edges, Node.edges, hins, edgesL_append, edgesL, edgesL, List.append_nil]
          exact List.perm_append_comm
    · rcases hl : insertUnderL pid k c cs with ⟨cs', f⟩
      have hrw : Node.insertUnder pid k c (Node.mk d cs) = (Node.mk d cs', f) := by
        rw [Node.insertUnder, if_neg hid, hl]
      obtain ⟨hQf, hQt⟩ := hQ hfresh'
      rw [hl] at hQf hQt
      constructor
      · intro hf
        rw [hrw] at hf ⊢
        simp only at hf
        have : cs' = cs := hQf hf
        rw [this]
      · intro ht
        rw [hrw] at ht
        simp only at ht
        obtain ⟨hA, hK, p, hp, hpid, hE⟩ := hQt ht
        rw [hrw]
        refine ⟨?_, ?_, p, List.mem_cons_of_mem d hp, hpid, ?_⟩
        · show (Node.mk d cs').allDocs.Perm ((Node.mk d cs).allDocs ++ c.allDocs)
          rw [Node.allDocs, Node.allDocs, List.cons_append]
          exact hA.cons d
        · show (Node.mk d cs').treeKeys.Perm ((k :: c.treeKeys) ++ (Node.mk d cs).treeKeys)
          rw [Node.treeKeys, Node.treeKeys]
          exact hK
        · show (Node.mk d cs').edges.Perm (((p, c.document) :: c.edges) ++ (Node.mk d cs).edges)
          rw [Node.edges, Node.edges]
          exact hE d
  · -- nil case
    intro _
    constructor
    · intro _; rfl
    · intro ht; simp [insertUnderL] at ht
  · -- cons case
    intro k₀ n₀ rest hP hQ hfresh
    rw [keysL] at hfresh
    simp only [List.mem_cons, List.mem_append, not_or] at hfresh
    obtain ⟨hk0, hfn, hfrest⟩ := hfresh
    rcases hn : Node.insertUnder pid k c n₀ with ⟨n₀', f⟩
    cases f with
    | true =>
      have hrw : insertUnderL pid k c ((k₀, n₀) :: rest) = ((k₀, n₀') :: rest, true) := by
        rw [insertUnderL, hn]
      obtain ⟨-, hPt⟩ := hP hfn
      rw [hn] at hPt
      obtain ⟨hA, hK, p, hp, hpid, hE⟩ := hPt rfl
      constructor
      · intro hf; rw [hrw] at hf; simp at hf
      · intro _
        rw [hrw]
        have hdoc : n₀'.document = n₀.document := by
          have := insertUnder_document pid k c n₀
          rwa [hn] at this
        refine ⟨?_, ?_, p, List.mem_append_left _ hp, hpid, ?_⟩
        · show (allDocsL ((k₀, n₀') :: rest)).Perm (allDocsL ((k₀, n₀) :: rest) ++ c.allDocs)
          rw [allDocsL, allDocsL, List.append_assoc]
          refine ((hA.append_right (allDocsL rest)).trans ?_)
          rw [List.append_assoc]
          exact List.Perm.append_left _ List.perm_append_comm
        · show (keysL ((k₀, n₀') :: rest)).Perm ((k :: c.treeKeys) ++ keysL ((k₀, n₀) :: rest))
          rw [keysL, keysL]
          refine (((hK.append_right (keysL rest)).cons k₀).trans ?_)
          rw [List.append_assoc]
          exact List.perm_middle.symm
        · intro pd
          show (edgesL pd ((k₀, n₀') :: rest)).Perm
            (((p, c.document) :: c.edges) ++ edgesL pd ((k₀, n₀) :: rest))
          rw [edgesL, edgesL, hdoc]
          refine (((hE.append_right (edgesL pd rest)).cons (pd, n₀.document)).trans ?_)
          rw [List.append_assoc]
          exact List.perm_middle.symm
    | false =>
      rcases hr : insertUnderL pid k c rest with ⟨rest', f'⟩
      have hrw : insertUnderL pid k c ((k₀, n₀) :: rest) = ((k₀, n₀) :: rest', f') := by
        rw [insertUnderL, hn, hr]
      obtain ⟨hQf, hQt⟩ := hQ hfrest
      rw [hr] at hQf hQt
      cases f' with
      | false =>
        constructor
        · intro _
          rw [hrw]
          have : rest' = rest := hQf rfl
          rw [this]
        · intro ht; rw [hrw] at ht; simp at ht
      | true =>
        obtain ⟨hA, hK, p, hp, hpid, hE⟩ := hQt rfl
        constructor
        · intro hf; rw [hrw] at hf; simp at hf
        · intro _
          rw [hrw]
          refine ⟨?_, ?_, p, List.mem_append_right _ hp, hpid, ?_⟩
          · show (allDocsL ((k₀, n₀) :: rest')).Perm (allDocsL ((k₀, n₀) :: rest) ++ c.allDocs)
            rw [allDocsL, allDocsL, List.append_assoc]
            exact List.Perm.append_left _ hA
          · show (keysL ((k₀, n₀) :: rest')).Perm ((k :: c.treeKeys) ++ keysL ((k₀, n₀) :: rest))
            rw [keysL, keysL]
            refine (((List.Perm.append_left n₀.treeKeys hK).cons k₀).trans ?_)
            refine ((List.Perm.cons k₀ (perm_pull_front _ _ _)).trans ?_)
            exact List.perm_middle.symm
          · intro pd
            show (edgesL pd ((k₀, n₀) :: rest')).Perm
              (((p, c.document) :: c.edges) ++ edgesL pd ((k₀, n₀) :: rest))
            rw [edgesL, edgesL]
            refine (((List.Perm.append_left n₀.edges (hE pd)).cons (pd, n₀.document)).trans ?_)
            refine ((List.Perm.cons (pd, n₀.document) (perm_pull_front _ _ _)).trans ?_)
            exact List.perm_middle.symm

theorem Node.treeKeys_eq_keysL (n : Node) : n.treeKeys = keysL n.children := by
  cases n with
  | mk d cs => rw [Node.treeKeys]; rfl

theorem Node.allDocs_eq (n : Node) : n.allDocs = n.document :: allDocsL n.children := by
  cases n with
  | mk d cs => rw [Node.allDocs]; rfl

theorem Node.edges_eq (n : Node) : n.edges = edgesL n.document n.children := by
  cases n with
  | mk d cs => rw [Node.edges]; rfl

theorem lookupKV_append_of_not_mem {α : Type} (k : String) (l₁ l₂ : List (String × α))
    (h : k ∉ l₁.map Prod.fst) : lookupKV k (l₁ ++ l₂) = lookupKV k l₂ := by
  induction l₁ with
  | nil => rfl
  | cons p rest ih =>
    cases p with
    | mk k₀ v₀ =>
      rw [List.map_cons, List.mem_cons, not_or] at h
      rw [List.cons_append, lookupKV, if_neg (fun he => h.1 he.symm), ih h.2]

theorem lookupKV_replace_self {α : Type} (key : String) (v : α)
    (pre post : List (String × α)) (hpre : ∀ p ∈ pre, p.1 ≠ key) :
    lookupKV key (pre ++ (key, v) :: post) = some v := by
  rw [lookupKV_append_of_not_mem]
  · rw [lookupKV, if_pos rfl]
  · intro hm
    obtain ⟨p, hp, hpk⟩ := List.mem_map.mp hm
    exact hpre p hp hpk

theorem lookupKV_replace_other {α : Type} (key q : String) (v t : α)
    (pre post : List (String × α)) (hq : q ≠ key) :
    lookupKV q (pre ++ (key, v) :: post) = lookupKV q (pre ++ (key, t) :: post) := by
  induction pre with
  | nil =>
    rw [List.nil_append, List.nil_append, lookupKV, lookupKV,
      if_neg (Ne.symm hq), if_neg (Ne.symm hq)]
  | cons p rest ih =>
    rw [List.cons_append, List.cons_append, lookupKV, lookupKV]
    by_cases hp : p.1 = q
    · rw [if_pos hp, if_pos hp]
    · rw [if_neg hp, if_neg hp, ih]

theorem insertKV_decomposed {α : Type} (key : String) (v t : α)
    (pre post : List (String × α)) (hpre : ∀ p ∈ pre, p.1 ≠ key) :
    insertKV key v (pre ++ (key, t) :: post) = pre ++ (key, v) :: post := by
  induction pre with
  | nil => rw [List.nil_append, List.nil_append, insertKV, if_pos rfl]
  | cons p rest ih =>
    cases p with
    | mk k₀ v₀ =>
      rw [List.cons_append, insertKV, if_neg (hpre (k₀, v₀) (List.mem_cons_self _ _)),
        ih fun q hq => hpre q (List.mem_cons_of_mem _ hq)]
      rfl

/-- The common permutation shuffle used when one entry of a children list
has a new subtree `K` grafted into its middle. -/
theorem perm_graft {α : Type} (P Q A K : List α) (y : α) :
    (P ++ (y :: ((A ++ K) ++ Q))).Perm (K ++ (P ++ (y :: (A ++ Q)))) := by
  refine (List.Perm.append_left P ?_).trans (perm_pull_front P K _)
  rw [List.append_assoc]
  exact ((perm_pull_front A K Q).cons y).trans List.perm_middle.symm

/-- Effect of `insertAtKey` (the trash-branch insertion) when the target
key is present and the inserted key is globally fresh. -/
theorem insertAtKey_effect (r : Node) (key k : String) (c t : Node)
    (hlook : lookupKV key r.children = some t)
    (hfresh : k ∉ r.treeKeys) :
    ∃ r', r.insertAtKey key k c = (r', true) ∧
      r'.document = r.document ∧
      r'.allDocs.Perm (r.allDocs ++ c.allDocs) ∧
      r'.treeKeys.Perm ((k :: c.treeKeys) ++ r.treeKeys) ∧
      r'.edges.Perm (((t.document, c.document) :: c.edges) ++ r.edges) ∧
      lookupKV key r'.children = some (Node.mk t.document (insertKV k c t.children)) ∧
      (∀ q, q ≠ key → lookupKV q r'.children = lookupKV q r.children) := by
  obtain ⟨pre, post, hdecomp, hpre, hins⟩ := lookupKV_decomp key r.children t hlook
  have hkeys : r.treeKeys = keysL pre ++ (key :: (t.treeKeys ++ keysL post)) := by
    rw [Node.treeKeys_eq_keysL, hdecomp, keysL_append, keysL, Node.treeKeys_eq_keysL]
  have hkt : k ∉ t.children.map Prod.fst := by
    intro hm
    apply hfresh
    rw [hkeys]
    refine List.mem_append_right _ (List.mem_cons_of_mem _ (List.mem_append_left _ ?_))
    rw [Node.treeKeys_eq_keysL]
    exact map_fst_subset_keysL t.children k hm
  have htins : insertKV k c t.children = t.children ++ [(k, c)] := insertKV_append k c _ hkt
  have hrw : r.insertAtKey key k c =
      (Node.mk r.document
        (insertKV key (Node.mk t.document (insertKV k c t.children)) r.children), true) := by
    rw [Node.insertAtKey, hlook]
  have hins2 : ∀ v : Node, insertKV key v (pre ++ (key, t) :: post) = pre ++ (key, v) :: post :=
    fun v => insertKV_decomposed key v t pre post hpre
  refine ⟨Node.mk r.document
    (insertKV key (Node.mk t.document (insertKV k c t.children)) r.children),
    hrw, rfl, ?_, ?_, ?_, ?_, ?_⟩
  · simp only [Node.allDocs_eq, Node.document_mk, Node.children_mk, hdecomp, htins, hins2,
      allDocsL_append, allDocsL, List.append_nil]
    rw [← Multiset.coe_eq_coe]
    simp only [← Multiset.coe_add, ← Multiset.cons_coe, ← Multiset.singleton_add]
    abel
  · simp only [Node.treeKeys_eq_keysL, Node.children_mk, hdecomp, htins, hins2,
      keysL_append, keysL, List.append_nil]
    rw [← Multiset.coe_eq_coe]
    simp only [← Multiset.coe_add, ← Multiset.cons_coe, ← Multiset.singleton_add]
    abel
  · simp only [Node.edges_eq, Node.document_mk, Node.children_mk, hdecomp, htins, hins2,
      edgesL_append, edgesL, List.append_nil]
    rw [← Multiset.coe_eq_coe]
    simp only [← Multiset.coe_add, ← Multiset.cons_coe, ← Multiset.singleton_add]
    abel
  · rw [Node.children_mk, hins]
    exact lookupKV_replace_self key _ pre post hpre
  · intro q hq
    rw [Node.children_mk, hins, hdecomp]
    exact lookupKV_replace_other key q _ t pre post hq

/-- Effect of a fresh `insertRootChild`. -/
theorem insertRootChild_effect (r : Node) (k : String) (c : Node)
    (hfresh : k ∉ r.treeKeys) :
    (r.insertRootChild k c).document = r.document ∧
    (r.insertRootChild k c).allDocs.Perm (r.allDocs ++ c.allDocs) ∧
    (r.insertRootChild k c).treeKeys.Perm ((k :: c.treeKeys) ++ r.treeKeys) ∧
    (r.insertRootChild k c).edges.Perm (((r.document, c.document) :: c.edges) ++ r.edges) ∧
    lookupKV k (r.insertRootChild k c).children = some c ∧
    (∀ q, q ≠ k → lookupKV q (r.insertRootChild k c).children = lookupKV q r.children) := by
  have hkm : k ∉ r.children.map Prod.fst := by
    intro hm
    apply hfresh
    rw [Node.treeKeys_eq_keysL]
    exact map_fst_subset_keysL r.children k hm
  have hins : insertKV k c r.children = r.children ++ [(k, c)] := insertKV_append k c _ hkm
  refine ⟨rfl, ?_, ?_, ?_, ?_, ?_⟩
  · simp only [Node.insertRootChild, Node.allDocs_eq, Node.document_mk, Node.children_mk,
      hins, allDocsL_append, allDocsL, List.append_nil]
    rw [← Multiset.coe_eq_coe]
    simp only [← Multiset.coe_add, ← Multiset.cons_coe, ← Multiset.singleton_add]
    abel
  · simp only [Node.insertRootChild, Node.treeKeys_eq_keysL, Node.children_mk,
      hins, keysL_append, keysL, List.append_nil]
    rw [← Multiset.coe_eq_coe]
    simp only [← Multiset.coe_add, ← Multiset.cons_coe, ← Multiset.singleton_add]
    abel
  · simp only [Node.insertRootChild, Node.edges_eq, Node.document_mk, Node.children_mk,
      hins, edgesL_append, edgesL, List.append_nil]
    rw [← Multiset.coe_eq_coe]
    simp only [← Multiset.coe_add, ← Multiset.cons_coe, ← Multiset.singleton_add]
    abel
  · rw [Node.insertRootChild, Node.children_mk, hins]
    rw [lookupKV_append_of_not_mem k _ _ hkm, lookupKV, if_pos rfl]
  · intro q hq
    rw [Node.insertRootChild, Node.children_mk]
    exact lookupKV_insertKV_ne q k c r.children (Ne.symm hq)

/-- Effect of inserting a batch of fresh leaf pairs directly under the
root (the root-level pass and the unresolved fallback). -/
theorem foldRootInsert_effect : ∀ (ps : List (String × Node)) (root : Node),
    (∀ p ∈ ps, p.2.children = ([] : List (String × Node))) →
    ((ps.map Prod.fst) ++ root.treeKeys).Nodup →
    (foldRootInsert root ps).document = root.document ∧
    ((foldRootInsert root ps).allDocs).Perm (root.allDocs ++ ps.map (fun p => p.2.document)) ∧
    ((foldRootInsert root ps).treeKeys).Perm (root.treeKeys ++ ps.map Prod.fst) ∧
    ((foldRootInsert root ps).edges).Perm
      (root.edges ++ ps.map (fun p => (root.document, p.2.document))) ∧
    (∀ q t, q ∉ ps.map Prod.fst → lookupKV q root.children = some t →
      lookupKV q (foldRootInsert root ps).children = some t) ∧
    (∀ p ∈ ps, ∃ t, lookupKV p.1 (foldRootInsert root ps).children = some t ∧
      t.document = p.2.document) := by
  intro ps
  induction ps with
  | nil =>
    intro root _ _
    refine ⟨rfl, by simp [foldRootInsert], by simp [foldRootInsert],
      by simp [foldRootInsert], ?_, by simp⟩
    intro q t _ h
    simpa [foldRootInsert] using h
  | cons p rest ih =>
    intro root hshape hnd
    cases p with
    | mk k₀ n₀ =>
      have hchild : n₀.children = [] := hshape (k₀, n₀) (List.mem_cons_self _ _)
      have hn₀keys : n₀.treeKeys = [] := by
        rw [Node.treeKeys_eq_keysL, hchild]
        rfl
      have hn₀docs : n₀.allDocs = [n₀.document] := by
        rw [Node.allDocs_eq, hchild]
        rfl
      have hn₀edges : n₀.edges = [] := by
        rw [Node.edges_eq, hchild]
        rfl
      rw [List.map_cons, List.cons_append, List.nodup_cons, List.mem_append, not_or] at hnd
      obtain ⟨⟨hk₀rest, hk₀root⟩, hndrest⟩ := hnd
      obtain ⟨hEdoc, hEdocs, hEkeys, hEedges, hElookSelf, hElookOther⟩ :=
        insertRootChild_effect root k₀ n₀ hk₀root
      have hfold : foldRootInsert root ((k₀, n₀) :: rest) =
          foldRootInsert (root.insertRootChild k₀ n₀) rest := rfl
      have hkeys1 : (root.insertRootChild k₀ n₀).treeKeys.Perm (k₀ :: root.treeKeys) := by
        rw [hn₀keys] at hEkeys
        exact hEkeys
      have hndrest' : ((rest.map Prod.fst) ++ (root.insertRootChild k₀ n₀).treeKeys).Nodup := by
        have hp : ((rest.map Prod.fst) ++ (root.insertRootChild k₀ n₀).treeKeys).Perm
            (k₀ :: (rest.map Prod.fst ++ root.treeKeys)) :=
          (List.Perm.append_left (rest.map Prod.fst) hkeys1).trans List.perm_middle
        refine hp.symm.nodup ?_
        exact List.nodup_cons.mpr ⟨by rw [List.mem_append]; exact not_or.mpr ⟨hk₀rest, hk₀root⟩,
          hndrest⟩
      have hshape' : ∀ p ∈ rest, p.2.children = ([] : List (String × Node)) :=
        fun p hp => hshape p (List.mem_cons_of_mem _ hp)
      obtain ⟨hIdoc, hIdocs, hIkeys, hIedges, hIpres, hInew⟩ :=
        ih (root.insertRootChild k₀ n₀) hshape' hndrest'
      refine ⟨?_, ?_, ?_, ?_, ?_, ?_⟩
      · rw [hfold, hIdoc, hEdoc]
      · rw [hfold, List.map_cons]
        rw [hn₀docs] at hEdocs
        rw [← Multiset.coe_eq_coe] at hIdocs hEdocs ⊢
        simp only [← Multiset.coe_add, ← Multiset.cons_coe, ← Multiset.singleton_add]
          at hIdocs hEdocs ⊢
        rw [hIdocs, hEdocs]
        abel
      · rw [hfold, List.map_cons]
        rw [← Multiset.coe_eq_coe] at hIkeys hkeys1 ⊢
        simp only [← Multiset.coe_add, ← Multiset.cons_coe, ← Multiset.singleton_add]
          at hIkeys hkeys1 ⊢
        rw [hIkeys, hkeys1]
        abel
      · rw [hfold, List.map_cons]
        rw [hEdoc] at hIedges
        rw [hn₀edges] at hEedges
        rw [← Multiset.coe_eq_coe] at hIedges hEedges ⊢
        simp only [← Multiset.coe_add, ← Multiset.cons_coe, ← Multiset.singleton_add]
          at hIedges hEedges ⊢
        rw [hIedges, hEedges]
        abel
      · intro q t hq hlook
        rw [List.map_cons, List.mem_cons, not_or] at hq
        rw [hfold]
        refine hIpres q t hq.2 ?_
        rw [hElookOther q hq.1]
        exact hlook
      · intro p hp
        rcases List.mem_cons.mp hp with rfl | hmem
        · rw [hfold]
          exact ⟨n₀, hIpres k₀ n₀ hk₀rest hElookSelf, rfl⟩
        · rw [hfold]
          exact hInew p hmem

theorem leaf_allDocs (n : Node) (h : n.children = []) : n.allDocs = [n.document] := by
  rw [Node.allDocs_eq, h]
  rfl

theorem leaf_treeKeys (n : Node) (h : n.children = []) : n.treeKeys = [] := by
  rw [Node.treeKeys_eq_keysL, h]
  rfl

theorem leaf_edges (n : Node) (h : n.children = []) : n.edges = [] := by
  rw [Node.edges_eq, h]
  rfl

theorem lookupKV_mem_keys {α : Type} (q : String) (l : List (String × α)) (t : α)
    (h : lookupKV q l = some t) : q ∈ l.map Prod.fst := by
  induction l with
  | nil => simp [lookupKV] at h
  | cons p rest ih =>
    rw [lookupKV] at h
    by_cases hp : p.1 = q
    · rw [List.map_cons]
      exact hp ▸ List.mem_cons_self _ _
    · rw [if_neg hp] at h
      exact List.mem_cons_of_mem _ (ih h)

theorem keys_mem_treeKeys (r : Node) (q : String) (hq : q ∈ r.children.map Prod.fst) :
    q ∈ r.treeKeys := by
  rw [Node.treeKeys_eq_keysL]
  exact map_fst_subset_keysL r.children q hq

/-- The loop invariant of `FileTree::build`'s fixed-point iteration, tying
the current tree `root` and the remaining map `rem` to the input `docs`. -/
structure BuildInv (docs : List Document) (root : Node) (rem : List (String × Node)) : Prop where
  rootdoc : root.document = rootDocument
  docsacc : (root.allDocs ++ rem.map (fun p => p.2.document)).Perm
    (rootDocument :: trashDocument :: docs)
  keysacc : (root.treeKeys ++ rem.map Prod.fst).Perm ("trash" :: docs.map Document.id)
  remshape : ∀ p ∈ rem, p.2.children = ([] : List (String × Node)) ∧ p.1 = p.2.document.id ∧
    p.2.document ∈ docs
  edgesok : ∀ e ∈ root.edges, e.2.parent = e.1.id ∨ e.1 = rootDocument ∨
    (e.2.parent = "trash" ∧ e.1 = trashDocument)
  roots6 : ∀ d ∈ docs, d.parent = "" → ∃ t, lookupKV d.id root.children = some t ∧
    t.document = d
  trash5 : ∃ t, lookupKV "trash" root.children = some t ∧ t.document = trashDocument
  trash7 : ∀ d ∈ docs, d.parent = "trash" → (∀ p ∈ rem, p.2.document ≠ d) →
    ∃ t u, lookupKV "trash" root.children = some t ∧ lookupKV d.id t.children = some u ∧
      u.document = d

theorem BuildInv.keys_nodup {docs : List Document} {root : Node} {rem : List (String × Node)}
    (hnd : ("trash" :: docs.map Document.id).Nodup) (inv : BuildInv docs root rem) :
    (root.treeKeys ++ rem.map Prod.fst).Nodup :=
  inv.keysacc.symm.nodup hnd

theorem BuildInv.fresh_of_mem_rem {docs : List Document} {root : Node}
    {rem : List (String × Node)}
    (hnd : ("trash" :: docs.map Document.id).Nodup) (inv : BuildInv docs root rem)
    (k : String) (hk : k ∈ rem.map Prod.fst) : k ∉ root.treeKeys := by
  have h := inv.keys_nodup hnd
  rw [List.nodup_append] at h
  exact fun hmem => h.2.2 hmem hk

theorem BuildInv.trash_notin_ids {docs : List Document} {root : Node}
    {rem : List (String × Node)}
    (hnd : ("trash" :: docs.map Document.id).Nodup) (inv : BuildInv docs root rem) :
    "trash" ∉ docs.map Document.id :=
  (List.nodup_cons.mp hnd).1

theorem docs_id_inj {docs : List Document}
    (hnd : ("trash" :: docs.map Document.id).Nodup)
    (d₁ d₂ : Document) (h₁ : d₁ ∈ docs) (h₂ : d₂ ∈ docs) (hid : d₁.id = d₂.id) : d₁ = d₂ := by
  have hmap : (docs.map Document.id).Nodup := (List.nodup_cons.mp hnd).2
  exact List.inj_on_of_nodup_map hmap h₁ h₂ hid

theorem passStep_inv (docs : List Document) (root : Node) (rem : List (String × Node))
    (b : Bool) (p : String × Node)
    (hnd : ("trash" :: docs.map Document.id).Nodup)
    (inv : BuildInv docs root rem)
    (hpar : ∀ v rest, extractKV p.1 rem = some (v, rest) →
      v.document.parent = p.2.document.parent) :
    BuildInv docs (passStep (root, rem, b) p).1 (passStep (root, rem, b) p).2.1 := by
  by_cases htr : p.2.document.parent = "trash"
  · cases hex : extractKV p.1 rem with
    | none =>
      have hps : passStep (root, rem, b) p = (root, rem, b) := by
        simp only [passStep]
        rw [if_pos htr, hex]
      rw [hps]
      exact inv
    | some pr =>
      rcases pr with ⟨node, rem'⟩
      have hvp : node.document.parent = "trash" := (hpar node rem' hex).trans htr
      have hperm : rem.Perm ((p.1, node) :: rem') := extractKV_perm _ _ _ _ hex
      have hmem : (p.1, node) ∈ rem := hperm.mem_iff.mpr (List.mem_cons_self _ _)
      obtain ⟨hnchild, hnk, hndoc⟩ := inv.remshape _ hmem
      have hkmem : p.1 ∈ rem.map Prod.fst := List.mem_map.mpr ⟨(p.1, node), hmem, rfl⟩
      have hfresh := inv.fresh_of_mem_rem hnd p.1 hkmem
      obtain ⟨t, hlook, htd⟩ := inv.trash5
      obtain ⟨r', hins, hrdoc, hrdocs, hrkeys, hredges, hlookT, hlookO⟩ :=
        insertAtKey_effect root "trash" p.1 node t hlook hfresh
      have hnk2 : p.1 = node.document.id := hnk
      have hnchild2 : node.children = [] := hnchild
      have hndoc2 : node.document ∈ docs := hndoc
      have hps : passStep (root, rem, b) p = (r', rem', true) := by
        simp only [passStep]
        rw [if_pos htr, hex]
        simp only [hins]
      rw [hps]
      show BuildInv docs r' rem'
      have hnodedocs := leaf_allDocs node hnchild2
      have hnodekeys := leaf_treeKeys node hnchild2
      have hnodeedges := leaf_edges node hnchild2
      refine ⟨hrdoc.trans inv.rootdoc, ?_, ?_, ?_, ?_, ?_, ?_, ?_⟩
      · have hremdocs : (rem.map (fun q => q.2.document)).Perm
            (node.document :: rem'.map (fun q => q.2.document)) := by
          simpa using hperm.map (fun q => q.2.document)
        have hC := inv.docsacc
        rw [hnodedocs] at hrdocs
        rw [← Multiset.coe_eq_coe] at hrdocs hremdocs hC ⊢
        simp only [← Multiset.coe_add, ← Multiset.cons_coe, ← Multiset.singleton_add]
          at hrdocs hremdocs hC ⊢
        rw [hrdocs, ← hC, hremdocs]
        abel
      · have hremkeys : (rem.map Prod.fst).Perm (p.1 :: rem'.map Prod.fst) := by
          simpa using hperm.map Prod.fst
        have hC := inv.keysacc
        rw [hnodekeys] at hrkeys
        rw [← Multiset.coe_eq_coe] at hrkeys hremkeys hC ⊢
        simp only [← Multiset.coe_add, ← Multiset.cons_coe, ← Multiset.singleton_add]
          at hrkeys hremkeys hC ⊢
        rw [hrkeys, ← hC, hremkeys]
        abel
      · intro q hq
        exact inv.remshape q (hperm.mem_iff.mpr (List.mem_cons_of_mem _ hq))
      · intro e he
        rw [hnodeedges, htd] at hredges
        have := hredges.mem_iff.mp he
        rw [List.cons_append, List.nil_append, List.mem_cons] at this
        rcases this with rfl | hmem2
        · exact Or.inr (Or.inr ⟨hvp, rfl⟩)
        · exact inv.edgesok e hmem2
      · intro d hd hdp
        obtain ⟨t0, hl0, ht0⟩ := inv.roots6 d hd hdp
        have hne : d.id ≠ "trash" := fun he =>
          inv.trash_notin_ids hnd (he ▸ List.mem_map.mpr ⟨d, hd, rfl⟩)
        exact ⟨t0, by rw [hlookO d.id hne]; exact hl0, ht0⟩
      · refine ⟨_, hlookT, by simpa using htd⟩
      · intro d hd hdp hnotin
        by_cases hdn : d = node.document
        · refine ⟨_, node, hlookT, ?_, hdn.symm⟩
          rw [Node.children_mk]
          have hdid : d.id = p.1 := by rw [hdn, hnk2]
          rw [hdid]
          exact lookupKV_insertKV_self p.1 node t.children
        · have hdne : ∀ q ∈ rem, q.2.document ≠ d := by
            intro q hq
            rcases List.mem_cons.mp (hperm.mem_iff.mp hq) with rfl | hmem2
            · exact fun he => hdn (he.symm)
            · exact hnotin q hmem2
          obtain ⟨t0, u0, hl0, hlu0, hu0⟩ := inv.trash7 d hd hdp hdne
          have ht0t : t = t0 := by
            rw [hlook] at hl0
            exact Option.some.inj hl0
          subst ht0t
          refine ⟨_, u0, hlookT, ?_, hu0⟩
          rw [Node.children_mk]
          have hidne : d.id ≠ p.1 := by
            rw [hnk2]
            intro he
            exact hdn (docs_id_inj hnd d node.document hd hndoc2 he)
          rw [lookupKV_insertKV_ne d.id p.1 node t.children (Ne.symm hidne)]
          exact hlu0
  · cases hex : extractKV p.1 rem with
    | none =>
      have hps : passStep (root, rem, b) p = (root, rem, b) := by
        simp only [passStep]
        rw [if_neg htr, hex]
      rw [hps]
      exact inv
    | some pr =>
      rcases pr with ⟨node, rem'⟩
      rcases hu : Node.insertUnder p.2.document.parent p.1 node root with ⟨root', found⟩
      cases found with
      | false =>
        have hps : passStep (root, rem, b) p = (root, rem, b) := by
          simp only [passStep]
          rw [if_neg htr, hex]
          simp only [hu]
        rw [hps]
        exact inv
      | true =>
        have hvp : node.document.parent = p.2.document.parent := hpar node rem' hex
        have hperm : rem.Perm ((p.1, node) :: rem') := extractKV_perm _ _ _ _ hex
        have hmem : (p.1, node) ∈ rem := hperm.mem_iff.mpr (List.mem_cons_self _ _)
        obtain ⟨hnchild, hnk, hndoc⟩ := inv.remshape _ hmem
        have hnk2 : p.1 = node.document.id := hnk
        have hnchild2 : node.children = [] := hnchild
        have hndoc2 : node.document ∈ docs := hndoc
        have hkmem : p.1 ∈ rem.map Prod.fst := List.mem_map.mpr ⟨(p.1, node), hmem, rfl⟩
        have hfresh := inv.fresh_of_mem_rem hnd p.1 hkmem
        have heff := (insertUnder_effect p.2.document.parent p.1 node).1 root hfresh
        have htrue : (Node.insertUnder p.2.document.parent p.1 node root).2 = true := by
          rw [hu]
        obtain ⟨hA, hK, pdoc, hpmem, hpid, hE⟩ := heff.2 htrue
        rw [hu] at hA hK hE
        dsimp only at hA hK hE
        have hrdoc : root'.document = root.document := by
          have h2 := insertUnder_document p.2.document.parent p.1 node root
          rwa [hu] at h2
        have hps : passStep (root, rem, b) p = (root', rem', true) := by
          simp only [passStep]
          rw [if_neg htr, hex]
          simp only [hu]
        rw [hps]
        show BuildInv docs root' rem'
        have hnodedocs := leaf_allDocs node hnchild2
        have hnodekeys := leaf_treeKeys node hnchild2
        have hnodeedges := leaf_edges node hnchild2
        have hqnek : ∀ q t0, lookupKV q root.children = some t0 → q ≠ p.1 := by
          intro q t0 hl he
          exact hfresh (he ▸ keys_mem_treeKeys root q (lookupKV_mem_keys q _ t0 hl))
        refine ⟨hrdoc.trans inv.rootdoc, ?_, ?_, ?_, ?_, ?_, ?_, ?_⟩
        · have hremdocs : (rem.map (fun q => q.2.document)).Perm
              (node.document :: rem'.map (fun q => q.2.document)) := by
            simpa using hperm.map (fun q => q.2.document)
          have hC := inv.docsacc
          rw [hnodedocs] at hA
          rw [← Multiset.coe_eq_coe] at hA hremdocs hC ⊢
          simp only [← Multiset.coe_add, ← Multiset.cons_coe, ← Multiset.singleton_add]
            at hA hremdocs hC ⊢
          rw [hA, ← hC, hremdocs]
          abel
        · have hremkeys : (rem.map Prod.fst).Perm (p.1 :: rem'.map Prod.fst) := by
            simpa using hperm.map Prod.fst
          have hC := inv.keysacc
          rw [hnodekeys] at hK
          rw [← Multiset.coe_eq_coe] at hK hremkeys hC ⊢
          simp only [← Multiset.coe_add, ← Multiset.cons_coe, ← Multiset.singleton_add]
            at hK hremkeys hC ⊢
          rw [hK, ← hC, hremkeys]
          abel
        · intro q hq
          exact inv.remshape q (hperm.mem_iff.mpr (List.mem_cons_of_mem _ hq))
        · intro e he
          rw [hnodeedges] at hE
          have := hE.mem_iff.mp he
          rw [List.cons_append, List.nil_append, List.mem_cons] at this
          rcases this with rfl | hmem2
          · exact Or.inl (by rw [hvp, ← hpid])
          · exact inv.edgesok e hmem2
        · intro d hd hdp
          obtain ⟨t0, hl0, ht0⟩ := inv.roots6 d hd hdp
          obtain ⟨t', hlt', hdisj⟩ :=
            insertUnder_lookup_pres p.2.document.parent p.1 node root d.id t0
              (hqnek d.id t0 hl0) hl0
          rw [hu] at hlt'
          dsimp only at hlt'
          refine ⟨t', hlt', ?_⟩
          rcases hdisj with rfl | heq
          · exact ht0
          · rw [heq, insertUnder_document]
            exact ht0
        · obtain ⟨t0, hl0, ht0⟩ := inv.trash5
          obtain ⟨t', hlt', hdisj⟩ :=
            insertUnder_lookup_pres p.2.document.parent p.1 node root "trash" t0
              (hqnek "trash" t0 hl0) hl0
          rw [hu] at hlt'
          dsimp only at hlt'
          refine ⟨t', hlt', ?_⟩
          rcases hdisj with rfl | heq
          · exact ht0
          · rw [heq, insertUnder_document]
            exact ht0
        · intro d hd hdp hnotin
          have hdn : d ≠ node.document := by
            intro he
            rw [he] at hdp
            rw [hdp] at hvp
            exact htr hvp.symm
          have hdne : ∀ q ∈ rem, q.2.document ≠ d := by
            intro q hq
            rcases List.mem_cons.mp (hperm.mem_iff.mp hq) with rfl | hmem2
            · exact fun he => hdn he.symm
            · exact hnotin q hmem2
          obtain ⟨t0, u0, hl0, hlu0, hu0⟩ := inv.trash7 d hd hdp hdne
          obtain ⟨t', hlt', hdisj⟩ :=
            insertUnder_lookup_pres p.2.document.parent p.1 node root "trash" t0
              (hqnek "trash" t0 hl0) hl0
          rw [hu] at hlt'
          dsimp only at hlt'
          have hidne : d.id ≠ p.1 := by
            rw [hnk2]
            intro he
            exact hdn (docs_id_inj hnd d node.document hd hndoc2 he)
          rcases hdisj with rfl | heq
          · exact ⟨t', u0, hlt', hlu0, hu0⟩
          · obtain ⟨u', hlu', hdisj2⟩ :=
              insertUnder_lookup_pres p.2.document.parent p.1 node t0 d.id u0 hidne hlu0
            rw [← heq] at hlu'
            refine ⟨t', u', hlt', hlu', ?_⟩
            rcases hdisj2 with rfl | heq2
            · exact hu0
            · rw [heq2, insertUnder_document]
              exact hu0

theorem extractKV_mem {α : Type} (k : String) (l : List (String × α)) (v : α)
    (rest : List (String × α)) (h : extractKV k l = some (v, rest)) : (k, v) ∈ l :=
  (extractKV_perm k l v rest h).mem_iff.mpr (List.mem_cons_self _ _)

theorem extractKV_length {α : Type} (k : String) (l : List (String × α)) (v : α)
    (rest : List (String × α)) (h : extractKV k l = some (v, rest)) :
    l.length = rest.length + 1 := by
  have hp := (extractKV_perm k l v rest h).length_eq
  simpa using hp

/-- Complete case analysis of one loop-body step: either nothing happens,
or the processed id is removed from `rem` (with or without progress). -/
theorem passStep_shape (root : Node) (rem : List (String × Node)) (b : Bool)
    (p : String × Node) :
    passStep (root, rem, b) p = (root, rem, b) ∨
    ∃ v rest, extractKV p.1 rem = some (v, rest) ∧
      (passStep (root, rem, b) p = (root, rest, b) ∨
        ∃ r', passStep (root, rem, b) p = (r', rest, true)) := by
  by_cases htr : p.2.document.parent = "trash"
  · cases hex : extractKV p.1 rem with
    | none =>
      left
      simp only [passStep]
      rw [if_pos htr, hex]
    | some pr =>
      rcases pr with ⟨v, rest⟩
      rcases hia : root.insertAtKey "trash" p.1 v with ⟨r0, f⟩
      cases f with
      | false =>
        right
        refine ⟨v, rest, rfl, Or.inl ?_⟩
        simp only [passStep]
        rw [if_pos htr, hex]
        simp only [hia]
      | true =>
        right
        refine ⟨v, rest, rfl, Or.inr ⟨r0, ?_⟩⟩
        simp only [passStep]
        rw [if_pos htr, hex]
        simp only [hia]
  · cases hex : extractKV p.1 rem with
    | none =>
      left
      simp only [passStep]
      rw [if_neg htr, hex]
    | some pr =>
      rcases pr with ⟨v, rest⟩
      rcases hiu : Node.insertUnder p.2.document.parent p.1 v root with ⟨r0, f⟩
      cases f with
      | false =>
        left
        simp only [passStep]
        rw [if_neg htr, hex]
        simp only [hiu]
      | true =>
        right
        refine ⟨v, rest, rfl, Or.inr ⟨r0, ?_⟩⟩
        simp only [passStep]
        rw [if_neg htr, hex]
        simp only [hiu]

theorem passStep_len_le (root : Node) (rem : List (String × Node)) (b : Bool)
    (p : String × Node) : (passStep (root, rem, b) p).2.1.length ≤ rem.length := by
  rcases passStep_shape root rem b p with h | ⟨v, rest, hex, hc⟩
  · rw [h]
  · have hlen := extractKV_length p.1 rem v rest hex
    rcases hc with h | ⟨r', h⟩
    · rw [h]
      show rest.length ≤ rem.length
      omega
    · rw [h]
      show rest.length ≤ rem.length
      omega

theorem passStep_prog_mono (root : Node) (rem : List (String × Node)) (b : Bool)
    (p : String × Node) (hb : b = true) : (passStep (root, rem, b) p).2.2 = true := by
  rcases passStep_shape root rem b p with h | ⟨v, rest, hex, hc⟩
  · rw [h]
    exact hb
  · rcases hc with h | ⟨r', h⟩
    · rw [h]
      exact hb
    · rw [h]

theorem passStep_len_lt (root : Node) (rem : List (String × Node)) (b : Bool)
    (p : String × Node) (hb : b = false) (hp : (passStep (root, rem, b) p).2.2 = true) :
    (passStep (root, rem, b) p).2.1.length < rem.length := by
  rcases passStep_shape root rem b p with h | ⟨v, rest, hex, hc⟩
  · rw [h] at hp
    have hbt : b = true := hp
    rw [hb] at hbt
    exact absurd hbt (by simp)
  · have hlen := extractKV_length p.1 rem v rest hex
    rcases hc with h | ⟨r', h⟩
    · rw [h] at hp
      have hbt : b = true := hp
      rw [hb] at hbt
      exact absurd hbt (by simp)
    · rw [h]
      show rest.length < rem.length
      omega

theorem passStep_rem_mem (root : Node) (rem : List (String × Node)) (b : Bool)
    (p : String × Node) : ∀ q ∈ (passStep (root, rem, b) p).2.1, q ∈ rem := by
  rcases passStep_shape root rem b p with h | ⟨v, rest, hex, hc⟩
  · rw [h]
    exact fun q hq => hq
  · have hperm := extractKV_perm p.1 rem v rest hex
    have hsub : ∀ q ∈ rest, q ∈ rem := fun q hq =>
      hperm.mem_iff.mpr (List.mem_cons_of_mem _ hq)
    rcases hc with h | ⟨r', h⟩
    · rw [h]
      exact hsub
    · rw [h]
      exact hsub

theorem foldl_passStep_len_le (snap : List (String × Node)) :
    ∀ st : Node × List (String × Node) × Bool,
      (snap.foldl passStep st).2.1.length ≤ st.2.1.length := by
  induction snap with
  | nil => intro st; exact le_rfl
  | cons p snap' ih =>
    intro st
    rw [List.foldl_cons]
    rcases hst : st with ⟨r, m, b⟩
    exact le_trans (ih (passStep (r, m, b) p)) (passStep_len_le r m b p)

theorem foldl_passStep_prog_mono (snap : List (String × Node)) :
    ∀ st : Node × List (String × Node) × Bool,
      st.2.2 = true → (snap.foldl passStep st).2.2 = true := by
  induction snap with
  | nil => intro st h; exact h
  | cons p snap' ih =>
    intro st h
    rw [List.foldl_cons]
    rcases st with ⟨r, m, b⟩
    exact ih (passStep (r, m, b) p) (passStep_prog_mono r m b p h)

theorem foldl_passStep_lt (snap : List (String × Node)) :
    ∀ st : Node × List (String × Node) × Bool,
      st.2.2 = false → (snap.foldl passStep st).2.2 = true →
      (snap.foldl passStep st).2.1.length < st.2.1.length := by
  induction snap with
  | nil =>
    intro st h0 h1
    rw [List.foldl_nil] at h1
    rw [h0] at h1
    exact absurd h1 (by simp)
  | cons p snap' ih =>
    intro st h0 h1
    rw [List.foldl_cons] at h1 ⊢
    rcases st with ⟨r, m, b⟩
    by_cases hb1 : (passStep (r, m, b) p).2.2 = true
    · have hlt := passStep_len_lt r m b p h0 hb1
      exact lt_of_le_of_lt (foldl_passStep_len_le snap' _) hlt
    · have hb1' : (passStep (r, m, b) p).2.2 = false := by
        cases hx : (passStep (r, m, b) p).2.2
        · rfl
        · exact absurd hx hb1
      exact lt_of_lt_of_le (ih (passStep (r, m, b) p) hb1' h1) (passStep_len_le r m b p)

/-- One full pass preserves the invariant, and the remaining map only
loses entries (fold form, over any snapshot drawn from `rem₀`). -/
theorem foldl_passStep_inv (docs : List Document) (rem₀ : List (String × Node))
    (hnd : ("trash" :: docs.map Document.id).Nodup)
    (hkeys₀ : (rem₀.map Prod.fst).Nodup) :
    ∀ (snap : List (String × Node)) (root : Node) (m : List (String × Node)) (b : Bool),
      (∀ p ∈ snap, p ∈ rem₀) →
      (∀ q ∈ m, q ∈ rem₀) →
      BuildInv docs root m →
      BuildInv docs (snap.foldl passStep (root, m, b)).1
        (snap.foldl passStep (root, m, b)).2.1 ∧
      (∀ q ∈ (snap.foldl passStep (root, m, b)).2.1, q ∈ rem₀) := by
  intro snap
  induction snap with
  | nil =>
    intro root m b _ hm inv
    exact ⟨inv, hm⟩
  | cons p snap' ih =>
    intro root m b hsnap hm inv
    rw [List.foldl_cons]
    have hpar : ∀ v rest, extractKV p.1 m = some (v, rest) →
        v.document.parent = p.2.document.parent := by
      intro v rest hex
      have hv : (p.1, v) ∈ rem₀ := hm _ (extractKV_mem p.1 m v rest hex)
      have hpmem : (p.1, p.2) ∈ rem₀ := by
        rw [Prod.mk.eta]
        exact hsnap p (List.mem_cons_self _ _)
      have hvv : ((p.1, v) : String × Node) = (p.1, p.2) :=
        List.inj_on_of_nodup_map hkeys₀ hv hpmem rfl
      have hv2 : v = p.2 := congrArg Prod.snd hvv
      rw [hv2]
    have hinv1 := passStep_inv docs root m b p hnd inv hpar
    have hmem1 : ∀ q ∈ (passStep (root, m, b) p).2.1, q ∈ rem₀ := fun q hq =>
      hm q (passStep_rem_mem root m b p q hq)
    rcases hst : passStep (root, m, b) p with ⟨r1, m1, b1⟩
    rw [hst] at hinv1 hmem1
    dsimp only at hinv1 hmem1
    exact ih r1 m1 b1 (fun q hq => hsnap q (List.mem_cons_of_mem _ hq)) hmem1 hinv1

/-- Under the invariant, a loop-body step with an id whose parent is the
trash sentinel always makes progress (the trash node always exists). -/
theorem passStep_trash_progress (docs : List Document) (root : Node)
    (rem : List (String × Node))
    (hnd : ("trash" :: docs.map Document.id).Nodup) (inv : BuildInv docs root rem)
    (p : String × Node) (hp : p ∈ rem) (htr : p.2.document.parent = "trash") :
    (passStep (root, rem, false) p).2.2 = true := by
  have hpmem : (p.1, p.2) ∈ rem := by
    rw [Prod.mk.eta]
    exact hp
  have hne := extractKV_isSome_of_mem p.1 p.2 rem hpmem
  cases hex : extractKV p.1 rem with
  | none => exact absurd hex hne
  | some pr =>
    rcases pr with ⟨v, rest⟩
    have hkmem : p.1 ∈ rem.map Prod.fst := List.mem_map.mpr ⟨p, hp, rfl⟩
    have hfresh := inv.fresh_of_mem_rem hnd p.1 hkmem
    obtain ⟨t, hlook, htd⟩ := inv.trash5
    obtain ⟨r', hins, _, _, _, _, _, _⟩ := insertAtKey_effect root "trash" p.1 v t hlook hfresh
    have hps : passStep (root, rem, false) p = (r', rest, true) := by
      simp only [passStep]
      rw [if_pos htr, hex]
      simp only [hins]
    rw [hps]

/-- Under the invariant, a loop-body step that reports no progress
changed nothing at all. -/
theorem passStep_fixed (docs : List Document) (root : Node) (rem : List (String × Node))
    (hnd : ("trash" :: docs.map Document.id).Nodup) (inv : BuildInv docs root rem)
    (p : String × Node) (h : (passStep (root, rem, false) p).2.2 = false) :
    passStep (root, rem, false) p = (root, rem, false) := by
  by_cases htr : p.2.document.parent = "trash"
  · cases hex : extractKV p.1 rem with
    | none =>
      simp only [passStep]
      rw [if_pos htr, hex]
    | some pr =>
      rcases pr with ⟨v, rest⟩
      have hkmem : p.1 ∈ rem.map Prod.fst :=
        List.mem_map.mpr ⟨(p.1, v), extractKV_mem p.1 rem v rest hex, rfl⟩
      have hfresh := inv.fresh_of_mem_rem hnd p.1 hkmem
      obtain ⟨t, hlook, htd⟩ := inv.trash5
      obtain ⟨r', hins, _, _, _, _, _, _⟩ :=
        insertAtKey_effect root "trash" p.1 v t hlook hfresh
      have hps : passStep (root, rem, false) p = (r', rest, true) := by
        simp only [passStep]
        rw [if_pos htr, hex]
        simp only [hins]
      rw [hps] at h
      simp at h
  · cases hex : extractKV p.1 rem with
    | none =>
      simp only [passStep]
      rw [if_neg htr, hex]
    | some pr =>
      rcases pr with ⟨v, rest⟩
      rcases hiu : Node.insertUnder p.2.document.parent p.1 v root with ⟨r0, f⟩
      cases f with
      | false =>
        simp only [passStep]
        rw [if_neg htr, hex]
        simp only [hiu]
      | true =>
        have hps : passStep (root, rem, false) p = (r0, rest, true) := by
          simp only [passStep]
          rw [if_neg htr, hex]
          simp only [hiu]
        rw [hps] at h
        simp at h

/-- A fully unproductive pass is the identity, step by step. -/
theorem foldl_passStep_fixed (docs : List Document) (rem₀ : List (String × Node))
    (hnd : ("trash" :: docs.map Document.id).Nodup)
    (hkeys₀ : (rem₀.map Prod.fst).Nodup) :
    ∀ (snap : List (String × Node)) (root : Node) (m : List (String × Node)),
      (∀ p ∈ snap, p ∈ rem₀) →
      (∀ q ∈ m, q ∈ rem₀) →
      BuildInv docs root m →
      (snap.foldl passStep (root, m, false)).2.2 = false →
      snap.foldl passStep (root, m, false) = (root, m, false) ∧
      ∀ p ∈ snap, passStep (root, m, false) p = (root, m, false) := by
  intro snap
  induction snap with
  | nil =>
    intro root m _ _ _ _
    exact ⟨rfl, fun p hp => absurd hp (List.not_mem_nil p)⟩
  | cons p snap' ih =>
    intro root m hsnap hm inv hfalse
    rw [List.foldl_cons] at hfalse ⊢
    have hb1 : (passStep (root, m, false) p).2.2 = false := by
      cases hx : (passStep (root, m, false) p).2.2
      · rfl
      · exfalso
        have hmono := foldl_passStep_prog_mono snap' (passStep (root, m, false) p) hx
        rw [hmono] at hfalse
        exact Bool.noConfusion hfalse
    have hfix1 := passStep_fixed docs root m hnd inv p hb1
    rw [hfix1] at hfalse ⊢
    obtain ⟨h1, h2⟩ := ih root m (fun q hq => hsnap q (List.mem_cons_of_mem _ hq)) hm inv hfalse
    refine ⟨h1, ?_⟩
    intro q hq
    rcases List.mem_cons.mp hq with rfl | hq'
    · exact hfix1
    · exact h2 q hq'

theorem onePass_inv (docs : List Document) (root : Node) (rem : List (String × Node))
    (hnd : ("trash" :: docs.map Document.id).Nodup) (inv : BuildInv docs root rem) :
    BuildInv docs (onePass root rem).1 (onePass root rem).2.1 := by
  have hkeys₀ : (rem.map Prod.fst).Nodup := (List.nodup_append.mp (inv.keys_nodup hnd)).2.1
  simp only [onePass]
  exact (foldl_passStep_inv docs rem hnd hkeys₀ rem root rem false (fun p hp => hp)
    (fun q hq => hq) inv).1

theorem onePass_shrink (root : Node) (rem : List (String × Node))
    (h : (onePass root rem).2.2 = true) : (onePass root rem).2.1.length < rem.length := by
  simp only [onePass] at h ⊢
  exact foldl_passStep_lt rem (root, rem, false) rfl h

theorem onePass_false_eq (docs : List Document) (root : Node) (rem : List (String × Node))
    (hnd : ("trash" :: docs.map Document.id).Nodup) (inv : BuildInv docs root rem)
    (h : (onePass root rem).2.2 = false) :
    onePass root rem = (root, rem, false) ∧
    ∀ p ∈ rem, passStep (root, rem, false) p = (root, rem, false) := by
  have hkeys₀ : (rem.map Prod.fst).Nodup := (List.nodup_append.mp (inv.keys_nodup hnd)).2.1
  simp only [onePass] at h ⊢
  exact foldl_passStep_fixed docs rem hnd hkeys₀ rem root rem (fun p hp => hp)
    (fun q hq => hq) inv h

/-- When the pass reaches a fixed point, no remaining entry can have the
trash sentinel as parent (it would have been placed). -/
theorem onePass_false_no_trash (docs : List Document) (root : Node)
    (rem : List (String × Node))
    (hnd : ("trash" :: docs.map Document.id).Nodup) (inv : BuildInv docs root rem)
    (h : (onePass root rem).2.2 = false) :
    ∀ p ∈ rem, ¬ p.2.document.parent = "trash" := by
  intro p hp htr
  have hfix := (onePass_false_eq docs root rem hnd inv h).2 p hp
  have hpr := passStep_trash_progress docs root rem hnd inv p hp htr
  rw [hfix] at hpr
  exact Bool.noConfusion hpr

/-- The bounded loop with `length + 1` fuel reaches the real fixed point:
the invariant holds there and no trash-parented entry survives. -/
theorem buildLoopGo_spec (docs : List Document)
    (hnd : ("trash" :: docs.map Document.id).Nodup) :
    ∀ (fuel : Nat) (root : Node) (rem : List (String × Node)),
      BuildInv docs root rem → rem.length < fuel →
      BuildInv docs (buildLoopGo fuel root rem).1 (buildLoopGo fuel root rem).2 ∧
      ∀ p ∈ (buildLoopGo fuel root rem).2, ¬ p.2.document.parent = "trash" := by
  intro fuel
  induction fuel with
  | zero =>
    intro root rem _ hlt
    exact absurd hlt (Nat.not_lt_zero _)
  | succ fuel ih =>
    intro root rem inv hlt
    by_cases hre : rem.isEmpty
    · have hrw : buildLoopGo (fuel + 1) root rem = (root, rem) := by
        rw [buildLoopGo, if_pos hre]
      rw [hrw]
      have hnil : rem = [] := by
        cases rem with
        | nil => rfl
        | cons a l => exact absurd hre (by simp)
      refine ⟨inv, ?_⟩
      intro q hq
      rw [hnil] at hq
      exact absurd hq (List.not_mem_nil q)
    · rcases hop : onePass root rem with ⟨r1, m1, pr⟩
      have hinv1 : BuildInv docs r1 m1 := by
        have h1 := onePass_inv docs root rem hnd inv
        rw [hop] at h1
        exact h1
      cases pr with
      | true =>
        have hsh : m1.length < rem.length := by
          have h2 := onePass_shrink root rem (by rw [hop])
          rw [hop] at h2
          exact h2
        have hrw : buildLoopGo (fuel + 1) root rem = buildLoopGo fuel r1 m1 := by
          rw [buildLoopGo, if_neg hre]
          simp only [hop]
        rw [hrw]
        exact ih r1 m1 hinv1 (by omega)
      | false =>
        have hfix := onePass_false_eq docs root rem hnd inv (by rw [hop])
        have heq : ((r1, m1, false) : Node × List (String × Node) × Bool)
            = (root, rem, false) := by
          rw [← hop]
          exact hfix.1
        have hm1 : m1 = rem := congrArg (fun x => x.2.1) heq
        have hnt := onePass_false_no_trash docs root rem hnd inv (by rw [hop])
        have hrw : buildLoopGo (fuel + 1) root rem = (r1, m1) := by
          rw [buildLoopGo, if_neg hre]
          simp only [hop]
        rw [hrw]
        refine ⟨hinv1, ?_⟩
        intro q hq
        have hq' : q ∈ rem := by
          rw [← hm1]
          exact hq
        exact hnt q hq'

theorem Node.document_new (d : Document) : (Node.new d).document = d := rfl

theorem Node.children_new (d : Document) : (Node.new d).children = [] := rfl

theorem map_doc_of_idnode (l : List Document) :
    (l.map (fun d => (d.id, Node.new d))).map (fun p => p.2.document) = l := by
  induction l with
  | nil => rfl
  | cons d t ih => simp [ih, Node.document_new]

theorem map_key_of_idnode (l : List Document) :
    (l.map (fun d => (d.id, Node.new d))).map Prod.fst = l.map Document.id := by
  induction l with
  | nil => rfl
  | cons d t ih => simp [ih]

/-- `HashMap::collect` over pairwise-distinct ids builds the association
list in input order. -/
theorem buildIdToNode_aux :
    ∀ (ds : List Document) (acc : List (String × Node)),
      (∀ d ∈ ds, d.id ∉ acc.map Prod.fst) → (ds.map Document.id).Nodup →
      ds.foldl (fun m d => insertKV d.id (Node.new d) m) acc
        = acc ++ ds.map (fun d => (d.id, Node.new d)) := by
  intro ds
  induction ds with
  | nil =>
    intro acc _ _
    simp
  | cons d ds ih =>
    intro acc hfr hnd
    rw [List.foldl_cons]
    have hdf : d.id ∉ acc.map Prod.fst := hfr d (List.mem_cons_self _ _)
    have hins : insertKV d.id (Node.new d) acc = acc ++ [(d.id, Node.new d)] :=
      insertKV_append d.id (Node.new d) acc hdf
    rw [hins]
    rw [List.map_cons] at hnd
    have hhead : d.id ∉ ds.map Document.id := (List.nodup_cons.mp hnd).1
    have hnd' : (ds.map Document.id).Nodup := (List.nodup_cons.mp hnd).2
    have hfr' : ∀ d' ∈ ds, d'.id ∉ (acc ++ [(d.id, Node.new d)]).map Prod.fst := by
      intro d' hd' hmem
      rw [List.map_append] at hmem
      rcases List.mem_append.mp hmem with h | h
      · exact hfr d' (List.mem_cons_of_mem _ hd') h
      · simp only [List.map_cons, List.map_nil, List.mem_singleton] at h
        exact hhead (h ▸ List.mem_map.mpr ⟨d', hd', rfl⟩)
    rw [ih (acc ++ [(d.id, Node.new d)]) hfr' hnd']
    simp

theorem buildIdToNode_eq (docs : List Document) (hids : (docs.map Document.id).Nodup) :
    buildIdToNode docs = docs.map (fun d => (d.id, Node.new d)) := by
  have h := buildIdToNode_aux docs [] (by simp) hids
  simpa [buildIdToNode] using h

theorem filter_map_idnode (pred : Document → Bool) (docs : List Document) :
    (docs.map (fun d => (d.id, Node.new d))).filter (fun p => pred p.2.document)
      = (docs.filter pred).map (fun d => (d.id, Node.new d)) := by
  induction docs with
  | nil => rfl
  | cons d t ih =>
    simp only [List.map_cons, List.filter_cons, Node.document_new]
    by_cases hd : pred d = true
    · simp [hd, ih]
    · simp [hd, ih]

/-- The invariant holds right after seeding the tree (root, trash node,
and the empty-parent documents placed directly under root). -/
theorem build_init_inv (docs : List Document)
    (hnd : ("trash" :: docs.map Document.id).Nodup) :
    BuildInv docs
      (foldRootInsert
        ((Node.new rootDocument).insertRootChild "trash" (Node.new trashDocument))
        ((docs.filter (fun d => d.parent = "")).map (fun d => (d.id, Node.new d))))
      ((docs.filter (fun d => !decide (d.parent = ""))).map (fun d => (d.id, Node.new d))) := by
  have hids : (docs.map Document.id).Nodup := (List.nodup_cons.mp hnd).2
  have htrd : "trash" ∉ docs.map Document.id := (List.nodup_cons.mp hnd).1
  have hr1doc : ((Node.new rootDocument).insertRootChild "trash"
      (Node.new trashDocument)).document = rootDocument := rfl
  have hr1docs : ((Node.new rootDocument).insertRootChild "trash"
      (Node.new trashDocument)).allDocs = [rootDocument, trashDocument] := rfl
  have hr1keys : ((Node.new rootDocument).insertRootChild "trash"
      (Node.new trashDocument)).treeKeys = ["trash"] := rfl
  have hr1edges : ((Node.new rootDocument).insertRootChild "trash"
      (Node.new trashDocument)).edges = [(rootDocument, trashDocument)] := rfl
  have hr1look : lookupKV "trash" ((Node.new rootDocument).insertRootChild "trash"
      (Node.new trashDocument)).children = some (Node.new trashDocument) := rfl
  have hPkeys := map_key_of_idnode (docs.filter (fun d => d.parent = ""))
  have hNkeys := map_key_of_idnode (docs.filter (fun d => !decide (d.parent = "")))
  have hPdocs := map_doc_of_idnode (docs.filter (fun d => d.parent = ""))
  have hNdocs := map_doc_of_idnode (docs.filter (fun d => !decide (d.parent = "")))
  have hPids_nodup : ((docs.filter (fun d => d.parent = "")).map Document.id).Nodup :=
    hids.sublist ((List.filter_sublist docs).map Document.id)
  have htrP : "trash" ∉ (docs.filter (fun d => d.parent = "")).map Document.id := by
    intro hmem
    exact htrd (((List.filter_sublist docs).map Document.id).subset hmem)
  have hshape : ∀ p ∈ (docs.filter (fun d => d.parent = "")).map
      (fun d => (d.id, Node.new d)), p.2.children = ([] : List (String × Node)) := by
    intro p hp
    obtain ⟨d, _, rfl⟩ := List.mem_map.mp hp
    rfl
  have hknd : (((docs.filter (fun d => d.parent = "")).map
      (fun d => (d.id, Node.new d))).map Prod.fst ++
      ((Node.new rootDocument).insertRootChild "trash"
        (Node.new trashDocument)).treeKeys).Nodup := by
    rw [hPkeys, hr1keys]
    rw [List.nodup_append]
    refine ⟨hPids_nodup, by simp, ?_⟩
    intro a ha hb
    rw [List.mem_singleton] at hb
    subst hb
    exact htrP ha
  obtain ⟨hdoc2, hdocs2, hkeys2, hedges2, hpres2, hnew2⟩ :=
    foldRootInsert_effect ((docs.filter (fun d => d.parent = "")).map
      (fun d => (d.id, Node.new d)))
      ((Node.new rootDocument).insertRootChild "trash" (Node.new trashDocument))
      hshape hknd
  have hPN : ((docs.filter (fun d => d.parent = "")) ++
      (docs.filter (fun d => !decide (d.parent = "")))).Perm docs :=
    List.filter_append_perm _ docs
  refine ⟨hdoc2.trans hr1doc, ?_, ?_, ?_, ?_, ?_, ?_, ?_⟩
  · rw [hr1docs, hPdocs] at hdocs2
    rw [hNdocs]
    rw [← Multiset.coe_eq_coe] at hdocs2 hPN ⊢
    simp only [← Multiset.coe_add, ← Multiset.cons_coe, ← Multiset.singleton_add]
      at hdocs2 hPN ⊢
    rw [hdocs2, ← hPN]
    abel
  · have hPNids : ((docs.filter (fun d => d.parent = "")).map Document.id ++
        (docs.filter (fun d => !decide (d.parent = ""))).map Document.id).Perm
        (docs.map Document.id) := by
      have h := (List.filter_append_perm (fun d => decide (d.parent = "")) docs).map
        Document.id
      simpa using h
    rw [hr1keys, hPkeys] at hkeys2
    rw [hNkeys]
    rw [← Multiset.coe_eq_coe] at hkeys2 hPNids ⊢
    simp only [← Multiset.coe_add, ← Multiset.cons_coe, ← Multiset.singleton_add]
      at hkeys2 hPNids ⊢
    rw [hkeys2, ← hPNids]
    abel
  · intro p hp
    obtain ⟨d, hd, rfl⟩ := List.mem_map.mp hp
    exact ⟨rfl, rfl, (List.mem_filter.mp hd).1⟩
  · intro e he
    rcases List.mem_append.mp (hedges2.mem_iff.mp he) with h | h
    · rw [hr1edges, List.mem_singleton] at h
      subst h
      exact Or.inr (Or.inl rfl)
    · obtain ⟨q, hq, rfl⟩ := List.mem_map.mp h
      exact Or.inr (Or.inl hr1doc)
  · intro d hd hdp
    have hdP : d ∈ docs.filter (fun d => d.parent = "") :=
      List.mem_filter.mpr ⟨hd, by simpa using hdp⟩
    obtain ⟨t, hlk, ht⟩ := hnew2 (d.id, Node.new d) (List.mem_map.mpr ⟨d, hdP, rfl⟩)
    exact ⟨t, hlk, ht⟩
  · have htrps : "trash" ∉ ((docs.filter (fun d => d.parent = "")).map
        (fun d => (d.id, Node.new d))).map Prod.fst := by
      rw [hPkeys]
      exact htrP
    exact ⟨Node.new trashDocument, hpres2 "trash" (Node.new trashDocument) htrps hr1look, rfl⟩
  · intro d hd hdp hdne
    have hdN : d ∈ docs.filter (fun d => !decide (d.parent = "")) :=
      List.mem_filter.mpr ⟨hd, by simp [hdp]⟩
    exact absurd rfl (hdne _ (List.mem_map.mpr ⟨d, hdN, rfl⟩))

theorem build_root_eq (docs : List Document) :
    (FileTree.build docs).root =
      foldRootInsert
        (buildLoopGo
          (((buildIdToNode docs).partition (fun p => p.2.document.parent = "")).2.length + 1)
          (foldRootInsert
            ((Node.new rootDocument).insertRootChild "trash" (Node.new trashDocument))
            ((buildIdToNode docs).partition (fun p => p.2.document.parent = "")).1)
          ((buildIdToNode docs).partition (fun p => p.2.document.parent = "")).2).1
        (buildLoopGo
          (((buildIdToNode docs).partition (fun p => p.2.document.parent = "")).2.length + 1)
          (foldRootInsert
            ((Node.new rootDocument).insertRootChild "trash" (Node.new trashDocument))
            ((buildIdToNode docs).partition (fun p => p.2.document.parent = "")).1)
          ((buildIdToNode docs).partition (fun p => p.2.document.parent = "")).2).2 := rfl

/-- The whole fixed-point phase of `FileTree::build`, packaged: the final
tree before the fallback pass satisfies the invariant and its leftover
entries have no trash-parented document. -/
theorem build_final (docs : List Document)
    (hnd : ("trash" :: docs.map Document.id).Nodup) :
    ∃ root3 remF,
      (FileTree.build docs).root = foldRootInsert root3 remF ∧
      BuildInv docs root3 remF ∧
      ∀ p ∈ remF, ¬ p.2.document.parent = "trash" := by
  have hids : (docs.map Document.id).Nodup := (List.nodup_cons.mp hnd).2
  have h1 : (List.map (fun d => (d.id, Node.new d)) docs).filter
      (fun p => p.2.document.parent = "")
      = (docs.filter (fun d => d.parent = "")).map (fun d => (d.id, Node.new d)) :=
    filter_map_idnode (fun d => decide (d.parent = "")) docs
  have h2 : (List.map (fun d => (d.id, Node.new d)) docs).filter
      (not ∘ fun p => decide (p.2.document.parent = ""))
      = (docs.filter (fun d => !decide (d.parent = ""))).map (fun d => (d.id, Node.new d)) := by
    have h := filter_map_idnode (fun d => !decide (d.parent = "")) docs
    simpa [Function.comp] using h
  have hpartfull : (buildIdToNode docs).partition (fun p => p.2.document.parent = "")
      = ((docs.filter (fun d => d.parent = "")).map (fun d => (d.id, Node.new d)),
         (docs.filter (fun d => !decide (d.parent = ""))).map (fun d => (d.id, Node.new d))) := by
    rw [buildIdToNode_eq docs hids, List.partition_eq_filter_filter]
    rw [h1, h2]
  have hinit := build_init_inv docs hnd
  have hspec := buildLoopGo_spec docs hnd
    (((docs.filter (fun d => !decide (d.parent = ""))).map
      (fun d => (d.id, Node.new d))).length + 1)
    (foldRootInsert
      ((Node.new rootDocument).insertRootChild "trash" (Node.new trashDocument))
      ((docs.filter (fun d => d.parent = "")).map (fun d => (d.id, Node.new d))))
    ((docs.filter (fun d => !decide (d.parent = ""))).map (fun d => (d.id, Node.new d)))
    hinit (Nat.lt_succ_self _)
  refine ⟨_, _, ?_, hspec.1, hspec.2⟩
  rw [build_root_eq docs, hpartfull]

/-- C6 (amended): for a document list whose ids are pairwise distinct and
distinct from the trash sentinel, `FileTree::build` loses nothing: the
tree's documents are exactly root, trash, and the inputs; every
empty-parent document sits directly under root; every trash-parented
document sits under the synthetic trash node; and every parent-child edge
either matches the child's recorded parent id or hangs off root (the
empty-parent and dangling/cyclic fallback cases) or off the trash node.
The original claim (without distinctness) is refuted by
`c6_counterexample`: duplicate ids make the id-keyed HashMap drop
documents. -/
theorem c6_build_complete (docs : List Document)
    (hnd : ("trash" :: docs.map Document.id).Nodup) :
    ((FileTree.build docs).root.allDocs).Perm (rootDocument :: trashDocument :: docs) ∧
    (∀ d ∈ docs, d.parent = "" →
      ∃ n, lookupKV d.id (FileTree.build docs).root.children = some n ∧ n.document = d) ∧
    (∀ d ∈ docs, d.parent = "trash" →
      ∃ t n, lookupKV "trash" (FileTree.build docs).root.children = some t ∧
        lookupKV d.id t.children = some n ∧ n.document = d) ∧
    ∀ e ∈ (FileTree.build docs).root.edges,
      e.2.parent = e.1.id ∨ e.1 = rootDocument ∨
        (e.2.parent = "trash" ∧ e.1 = trashDocument) := by
  obtain ⟨root3, remF, hroot, inv3, hnt⟩ := build_final docs hnd
  have hshape : ∀ p ∈ remF, p.2.children = ([] : List (String × Node)) :=
    fun p hp => (inv3.remshape p hp).1
  have hknd : (remF.map Prod.fst ++ root3.treeKeys).Nodup :=
    List.perm_append_comm.nodup (inv3.keys_nodup hnd)
  obtain ⟨hdocE, hdocsE, hkeysE, hedgesE, hpresE, hnewE⟩ :=
    foldRootInsert_effect remF root3 hshape hknd
  rw [hroot]
  refine ⟨?_, ?_, ?_, ?_⟩
  · exact hdocsE.trans inv3.docsacc
  · intro d hd hdp
    obtain ⟨t, hlk, ht⟩ := inv3.roots6 d hd hdp
    have hnotk : d.id ∉ remF.map Prod.fst := by
      intro hmem
      have hin : d.id ∈ root3.treeKeys :=
        keys_mem_treeKeys root3 d.id (lookupKV_mem_keys d.id root3.children t hlk)
      have h2 := inv3.keys_nodup hnd
      rw [List.nodup_append] at h2
      exact h2.2.2 hin hmem
    exact ⟨t, hpresE d.id t hnotk hlk, ht⟩
  · intro d hd hdp
    have hdne : ∀ q ∈ remF, q.2.document ≠ d := by
      intro q hq he
      apply hnt q hq
      rw [he, hdp]
    obtain ⟨t, u, hlkT, hlku, hu⟩ := inv3.trash7 d hd hdp hdne
    have hnotk : "trash" ∉ remF.map Prod.fst := by
      intro hmem
      obtain ⟨q, hq, hq1⟩ := List.mem_map.mp hmem
      obtain ⟨-, hqid, hqdoc⟩ := inv3.remshape q hq
      have hin : "trash" ∈ docs.map Document.id := by
        rw [← hq1, hqid]
        exact List.mem_map.mpr ⟨q.2.document, hqdoc, rfl⟩
      exact (List.nodup_cons.mp hnd).1 hin
    exact ⟨t, u, hpresE "trash" t hnotk hlkT, hlku, hu⟩
  · intro e he
    rcases List.mem_append.mp (hedgesE.mem_iff.mp he) with h | h
    · exact inv3.edgesok e h
    · obtain ⟨q, hq, rfl⟩ := List.mem_map.mp h
      exact Or.inr (Or.inl inv3.rootdoc)

def c6xDoc1 : Document := { Document.default with id := "A", display_name := "one" }

def c6xDoc2 : Document := { Document.default with id := "A", display_name := "two" }

/-- C6 counterexample to the claim as stated: with two documents sharing
an id (which `get_files` can produce, since every malformed id collapses
to the nil UUID), the id-keyed `HashMap` collected in `FileTree::build`
keeps only the later entry, and the earlier document is silently dropped
from the resulting tree — it does not appear at all, under root or
anywhere else. -/
theorem c6_counterexample :
    ¬ ∀ d ∈ [c6xDoc1, c6xDoc2], d ∈ (FileTree.build [c6xDoc1, c6xDoc2]).root.allDocs := by
  decide

def c6wDoc : Document := { Document.default with id := "A", parent := "missing-id" }

/-- C6 witness: the amended theorem applied to one concrete document with
a dangling parent reference; it survives into the tree. -/
theorem c6_witness :
    ((FileTree.build [c6wDoc]).root.allDocs).Perm
      (rootDocument :: trashDocument :: [c6wDoc]) :=
  (c6_build_complete [c6wDoc] (by decide)).1

end Rmapi
